import Mathlib

/-!
Formal model of the query-evaluation engine of the
`obsidian-advanced-native-search` plugin (`src/search.ts`).

Strings are modelled as `List Char` (`Str`).  JavaScript `RegExp` objects are
modelled by a small executable regex engine (`RPiece`, `parseSeq`, `matchSeq`)
that covers exactly the subset of JS regex syntax the engine itself emits and
consumes: literal characters, escapes, `.`, the quantifiers `*` `+` `?` on a
single atom, the anchors `^` `$`, and zero-width lookahead groups `(?=...)`,
with the `i` flag.  Patterns outside this subset are treated as invalid by the
model (the engine returns `none`, modelling a thrown `SyntaxError`).

The external Obsidian primitives `prepareSimpleSearch` / `prepareFuzzySearch`
are not part of the repository; they are abstracted as function parameters
(`Str → Bool`, the truthiness of the returned search result).
-/

/-- Character-list model of a JavaScript string. -/
abbrev Str := List Char

/-- JS `String.prototype.toLowerCase` (restricted to the ASCII case map of
`Char.toLower`, which is all the engine's tests depend on). -/
def lower (s : Str) : Str := s.map Char.toLower

/-- JS line terminators (the characters `.` does not match). -/
def isLineTermCh (c : Char) : Bool :=
  c.toNat == 10 || c.toNat == 13 || c.toNat == 0x2028 || c.toNat == 0x2029

/-- ASCII letter test (the flags part `[a-z]*` of the explicit-regex literal
pattern, which carries the `i` flag and hence also accepts `A`-`Z`). -/
def isAsciiLetter (c : Char) : Bool :=
  (65 ≤ c.toNat && c.toNat ≤ 90) || (97 ≤ c.toNat && c.toNat ≤ 122)

/-- Whitespace for `String.prototype.trim` and the `\s` class (ASCII subset). -/
def isWsCh (c : Char) : Bool :=
  c == ' ' || c == '\t' || c == '\n' || c == '\r' ||
  c.toNat == 12 || c.toNat == 11

/-- Does `pre` occur at the start of `s`? (JS `String.prototype.startsWith`.) -/
def hasPre : Str → Str → Bool
  | [], _ => true
  | _ :: _, [] => false
  | c :: cs, d :: ds => c == d && hasPre cs ds

/-- JS `String.prototype.includes`: does `needle` occur in `hay`? -/
def strIncludes (hay needle : Str) : Bool :=
  match hay with
  | [] => needle.isEmpty
  | _ :: rest => hasPre needle hay || strIncludes rest needle

/-- JS `text.split(/\r?\n/)`. -/
def splitLines : Str → List Str
  | [] => [[]]
  | '\r' :: '\n' :: rest => [] :: splitLines rest
  | '\n' :: rest => [] :: splitLines rest
  | c :: rest =>
    match splitLines rest with
    | t :: ts => (c :: t) :: ts
    | [] => [[c]]

/-- JS `s.split(/[,\s]+/)`: split on maximal runs of separator characters,
keeping the (possibly empty) fragments between runs. -/
def splitRuns (p : Char → Bool) : Str → List Str
  | [] => [[]]
  | c :: rest =>
    if p c then
      match rest with
      | [] => [[], []]
      | d :: _ =>
        if p d then splitRuns p rest
        else [] :: splitRuns p rest
    else
      match splitRuns p rest with
      | t :: ts => (c :: t) :: ts
      | [] => [[c]]

/-- JS `String.prototype.trim` (ASCII whitespace). -/
def trimStr (s : Str) : Str :=
  ((s.dropWhile isWsCh).reverse.dropWhile isWsCh).reverse

/-- Append an element to an insertion-ordered set representation unless it is
already present (models `Set.prototype.add`). -/
def addUnique (acc : List Str) (s : Str) : List Str :=
  if acc.contains s then acc else acc ++ [s]

/-- Fold a list of strings into an insertion-ordered set (models iterating
`Set.prototype.add`). -/
def addAllUnique (acc : List Str) (l : List Str) : List Str :=
  l.foldl addUnique acc

/-- `new Set(l)` as an insertion-ordered deduplicated list. -/
def dedupOrdered (l : List Str) : List Str := addAllUnique [] l

/-! ## The regex engine: AST -/

/-- A single-character regex atom. -/
inductive RAtom where
  | dot
  | lit (c : Char)
deriving DecidableEq, Repr

/-- A simple (lookahead-free) regex pattern piece. -/
inductive RSimple where
  | bol
  | eol
  | one (a : RAtom)
  | star (a : RAtom)
  | plus (a : RAtom)
  | quest (a : RAtom)
deriving DecidableEq, Repr

/-- A regex pattern piece for the supported subset.  Lookahead groups cannot
nest in the subset, so their bodies are lists of simple pieces. -/
inductive RPiece where
  | simple (p : RSimple)
  | look (inner : List RSimple)
deriving DecidableEq, Repr

/-! ## The regex engine: parser

`parseInner` parses the body of a lookahead group up to and including the
closing `)` (nested groups are outside the supported subset).  `parseSeq`
parses a whole pattern; it is fuel-indexed (the fuel only ever needs to exceed
the input length) so that it stays structurally recursive and hence reducible
by the kernel. -/

/-- Characters that cannot start an atom in the supported subset. -/
def badAtomStart (c : Char) : Bool :=
  c == '|' || c == '[' || c == ']' || c == '{' || c == '}' ||
  c == '*' || c == '+' || c == '?'

def parseInner : Nat → Str → Option (List RSimple × Str)
  | 0, _ => none
  | _ + 1, [] => none
  | fuel + 1, c :: rest =>
    if c = ')' then some ([], rest)
    else if c = '^' then
      (fun pr => (RSimple.bol :: pr.1, pr.2)) <$> parseInner fuel rest
    else if c = '$' then
      (fun pr => (RSimple.eol :: pr.1, pr.2)) <$> parseInner fuel rest
    else if c = '(' then none
    else if badAtomStart c then none
    else if c = '\\' then
      match rest with
      | [] => none
      | d :: rest2 =>
        if d.isAlphanum then none
        else
          match rest2 with
          | q :: rest3 =>
            if q = '*' then
              (fun pr => (RSimple.star (.lit d) :: pr.1, pr.2)) <$> parseInner fuel rest3
            else if q = '+' then
              (fun pr => (RSimple.plus (.lit d) :: pr.1, pr.2)) <$> parseInner fuel rest3
            else if q = '?' then
              (fun pr => (RSimple.quest (.lit d) :: pr.1, pr.2)) <$> parseInner fuel rest3
            else
              (fun pr => (RSimple.one (.lit d) :: pr.1, pr.2)) <$> parseInner fuel (q :: rest3)
          | [] => (fun pr => (RSimple.one (.lit d) :: pr.1, pr.2)) <$> parseInner fuel []
    else
      let a : RAtom := if c = '.' then .dot else .lit c
      match rest with
      | q :: rest2 =>
        if q = '*' then
          (fun pr => (RSimple.star a :: pr.1, pr.2)) <$> parseInner fuel rest2
        else if q = '+' then
          (fun pr => (RSimple.plus a :: pr.1, pr.2)) <$> parseInner fuel rest2
        else if q = '?' then
          (fun pr => (RSimple.quest a :: pr.1, pr.2)) <$> parseInner fuel rest2
        else
          (fun pr => (RSimple.one a :: pr.1, pr.2)) <$> parseInner fuel (q :: rest2)
      | [] => (fun pr => (RSimple.one a :: pr.1, pr.2)) <$> parseInner fuel []

def parseSeq : Nat → Str → Option (List RPiece)
  | 0, _ => none
  | _ + 1, [] => some []
  | fuel + 1, c :: rest =>
    if c = ')' then none
    else if c = '^' then (RPiece.simple .bol :: ·) <$> parseSeq fuel rest
    else if c = '$' then (RPiece.simple .eol :: ·) <$> parseSeq fuel rest
    else if c = '(' then
      match rest with
      | '?' :: '=' :: rest2 =>
        match parseInner fuel rest2 with
        | some (inner, rest3) => (RPiece.look inner :: ·) <$> parseSeq fuel rest3
        | none => none
      | _ => none
    else if badAtomStart c then none
    else if c = '\\' then
      match rest with
      | [] => none
      | d :: rest2 =>
        if d.isAlphanum then none
        else
          match rest2 with
          | q :: rest3 =>
            if q = '*' then (RPiece.simple (.star (.lit d)) :: ·) <$> parseSeq fuel rest3
            else if q = '+' then (RPiece.simple (.plus (.lit d)) :: ·) <$> parseSeq fuel rest3
            else if q = '?' then (RPiece.simple (.quest (.lit d)) :: ·) <$> parseSeq fuel rest3
            else (RPiece.simple (.one (.lit d)) :: ·) <$> parseSeq fuel rest2
          | [] => (RPiece.simple (.one (.lit d)) :: ·) <$> parseSeq fuel rest2
    else
      let a : RAtom := if c = '.' then .dot else .lit c
      match rest with
      | q :: rest2 =>
        if q = '*' then (RPiece.simple (.star a) :: ·) <$> parseSeq fuel rest2
        else if q = '+' then (RPiece.simple (.plus a) :: ·) <$> parseSeq fuel rest2
        else if q = '?' then (RPiece.simple (.quest a) :: ·) <$> parseSeq fuel rest2
        else (RPiece.simple (.one a) :: ·) <$> parseSeq fuel rest
      | [] => (RPiece.simple (.one a) :: ·) <$> parseSeq fuel rest

/-- Parse a whole pattern body (enough fuel for the input). -/
def parseBody (s : Str) : Option (List RPiece) := parseSeq (s.length + 1) s

/-! ## The regex engine: matcher -/

/-- Does atom `a` match character `c` (under the `i` flag when `ic`)? -/
def matchAtom (ic : Bool) (a : RAtom) (c : Char) : Bool :=
  match a with
  | .dot => !isLineTermCh c
  | .lit l => if ic then l.toLower == c.toLower else l == c

/-- Size of one piece, used to bound the matcher's fuel. -/
def pieceSize : RPiece → Nat
  | .simple _ => 1
  | .look inner => inner.length + 1

/-- Size measure of a piece list, used to bound the matcher's fuel. -/
def piecesSize (ps : List RPiece) : Nat := (ps.map pieceSize).sum

/-- Backtracking matcher: does `ps` match a prefix of `s`?  `atStart` records
whether the current position is the start of the subject (for `^`).  The fuel
only needs to exceed `piecesSize ps + s.length`. -/
def matchSeq (ic : Bool) : Nat → List RPiece → Str → Bool → Bool
  | 0, _, _, _ => false
  | _ + 1, [], _, _ => true
  | fuel + 1, .simple .bol :: ps, s, atStart => atStart && matchSeq ic fuel ps s atStart
  | fuel + 1, .simple .eol :: ps, s, atStart => s.isEmpty && matchSeq ic fuel ps s atStart
  | fuel + 1, .simple (.one a) :: ps, s, _ =>
    match s with
    | [] => false
    | c :: rest => matchAtom ic a c && matchSeq ic fuel ps rest false
  | fuel + 1, .simple (.quest a) :: ps, s, atStart =>
    matchSeq ic fuel ps s atStart ||
      (match s with
       | [] => false
       | c :: rest => matchAtom ic a c && matchSeq ic fuel ps rest false)
  | fuel + 1, .simple (.star a) :: ps, s, atStart =>
    matchSeq ic fuel ps s atStart ||
      (match s with
       | [] => false
       | c :: rest => matchAtom ic a c && matchSeq ic fuel (.simple (.star a) :: ps) rest false)
  | fuel + 1, .simple (.plus a) :: ps, s, _ =>
    match s with
    | [] => false
    | c :: rest => matchAtom ic a c && matchSeq ic fuel (.simple (.star a) :: ps) rest false
  | fuel + 1, .look inner :: ps, s, atStart =>
    matchSeq ic fuel (inner.map RPiece.simple) s atStart && matchSeq ic fuel ps s atStart

/-- Match `ps` at the current position with sufficient fuel. -/
def matchHere (ic : Bool) (ps : List RPiece) (s : Str) (atStart : Bool) : Bool :=
  matchSeq ic (piecesSize ps + s.length + 1) ps s atStart

/-- JS `RegExp.prototype.test`: try every start position. -/
def searchAt (ic : Bool) (ps : List RPiece) : Str → Bool → Bool
  | [], atStart => matchHere ic ps [] atStart
  | c :: rest, atStart => matchHere ic ps (c :: rest) atStart || searchAt ic ps rest false

/-! ## The regex engine: first-match length and match counting

`matchLen` returns the number of characters consumed by the first successful
match in JS backtracking order (`*`, `+`, `?` greedy).  `scanCount` models
`String.prototype.matchAll` on a globalised regex: repeatedly take the
leftmost match, advance past it (by at least one character for empty
matches), and count. -/

def matchLen (ic : Bool) : Nat → List RPiece → Str → Bool → Option Nat
  | 0, _, _, _ => none
  | _ + 1, [], _, _ => some 0
  | fuel + 1, .simple .bol :: ps, s, atStart =>
    if atStart then matchLen ic fuel ps s atStart else none
  | fuel + 1, .simple .eol :: ps, s, atStart =>
    if s.isEmpty then matchLen ic fuel ps s atStart else none
  | fuel + 1, .simple (.one a) :: ps, s, _ =>
    match s with
    | [] => none
    | c :: rest =>
      if matchAtom ic a c then (· + 1) <$> matchLen ic fuel ps rest false else none
  | fuel + 1, .simple (.quest a) :: ps, s, atStart =>
    (match s with
     | [] => none
     | c :: rest =>
       if matchAtom ic a c then (· + 1) <$> matchLen ic fuel ps rest false else none) <|>
    matchLen ic fuel ps s atStart
  | fuel + 1, .simple (.star a) :: ps, s, atStart =>
    (match s with
     | [] => none
     | c :: rest =>
       if matchAtom ic a c then (· + 1) <$> matchLen ic fuel (.simple (.star a) :: ps) rest false
       else none) <|>
    matchLen ic fuel ps s atStart
  | fuel + 1, .simple (.plus a) :: ps, s, _ =>
    match s with
    | [] => none
    | c :: rest =>
      if matchAtom ic a c then (· + 1) <$> matchLen ic fuel (.simple (.star a) :: ps) rest false
      else none
  | fuel + 1, .look inner :: ps, s, atStart =>
    if matchSeq ic (inner.length + s.length + 1) (inner.map RPiece.simple) s atStart then
      matchLen ic fuel ps s atStart
    else none

/-- First-match length at the current position, with sufficient fuel. -/
def matchLenHere (ic : Bool) (ps : List RPiece) (s : Str) (atStart : Bool) : Option Nat :=
  matchLen ic (piecesSize ps + s.length + 1) ps s atStart

/-- Scan for non-overlapping matches from left to right (fuel-indexed). -/
def scanCount (ic : Bool) (ps : List RPiece) : Nat → Str → Bool → Nat
  | 0, _, _ => 0
  | _ + 1, [], atStart => if (matchLenHere ic ps [] atStart).isSome then 1 else 0
  | fuel + 1, c :: rest, atStart =>
    match matchLenHere ic ps (c :: rest) atStart with
    | some n => 1 + scanCount ic ps fuel ((c :: rest).drop (max n 1)) false
    | none => scanCount ic ps fuel rest false

/-! ## JsRegex values -/

/-- Model of a compiled JS `RegExp`. -/
structure JsRegex where
  source : Str
  flags : Str
  ast : List RPiece
  ignoreCase : Bool
deriving DecidableEq, Repr

/-- `RegExp.prototype.test`. -/
def rtest (rx : JsRegex) (s : Str) : Bool := searchAt rx.ignoreCase rx.ast s true

/-- Number of matches of `String.prototype.matchAll` on the globalised regex
(`countRegexMatches` in the source; `ensureGlobalRegex` only adds the `g`
flag, which the model's scan has built in). -/
def countRegexMatches (rx : JsRegex) (s : Str) : Nat :=
  scanCount rx.ignoreCase rx.ast (s.length + 1) s true

/-- Valid JS regex flag characters. -/
def validFlagCh (c : Char) : Bool :=
  c == 'd' || c == 'g' || c == 'i' || c == 'm' ||
  c == 's' || c == 'u' || c == 'v' || c == 'y'

/-- No duplicate characters. -/
def nodupB : Str → Bool
  | [] => true
  | c :: cs => !cs.contains c && nodupB cs

/-- Flag-string validity for `new RegExp` (`u` and `v` are incompatible). -/
def validFlags (fs : Str) : Bool :=
  fs.all validFlagCh && nodupB fs && !(fs.contains 'u' && fs.contains 'v')

/-- `new RegExp(body, flags)`: `none` models a thrown `SyntaxError`. -/
def mkJsRegex (body flags : Str) : Option JsRegex :=
  if validFlags flags then
    match parseBody body with
    | some ast => some ⟨body, flags, ast, flags.contains 'i'⟩
    | none => none
  else none

/-! ## tryParseExplicitRegex -/

/-- Split `rest` (the input after its leading `/`) at the last `/` whose tail
consists only of ASCII letters; this is the unique decomposition chosen by the
greedy match of `^\/(.+)\/([a-z]*)$/i`. -/
def splitLast : Str → Option (Str × Str)
  | [] => none
  | '/' :: cs =>
    match splitLast cs with
    | some (b, f) => some ('/' :: b, f)
    | none => if cs.all isAsciiLetter then some ([], cs) else none
  | c :: cs => (fun bf => (c :: bf.1, bf.2)) <$> splitLast cs

/-- `tryParseExplicitRegex` (`search.ts` lines 128-136): match the pattern
against `/^\/(.+)\/([a-z]*)$/i` and build the regex, returning `none` both
when the literal shape is absent and when `new RegExp` would throw. -/
def tryParseExplicitRegex (pat : Str) : Option JsRegex :=
  match pat with
  | '/' :: rest =>
    if rest.any isLineTermCh then none
    else
      match splitLast rest with
      | some (body, flags) => if body.isEmpty then none else mkJsRegex body flags
      | none => none
  | _ => none

/-! ## search.ts: options and query model -/

/-- `SearchMode`. -/
inductive SearchMode where
  | fuzzy
  | simple
  | regex
  | exact
deriving DecidableEq, Repr

/-- `SortMode`. -/
inductive SortMode where
  | mtimeDesc
  | mtimeAsc
  | pathAsc
deriving DecidableEq, Repr

/-- `GlobalQueryTargets`. -/
structure GlobalQueryTargets where
  body : Bool
  name : Bool
  path : Bool
  frontmatter : Bool
  tags : Bool
  headings : Bool
deriving DecidableEq, Repr

/-- `SearchOptions` (`limit?: number | null` is `Option Int`). -/
structure SearchOptions where
  mode : SearchMode
  caseSensitive : Bool
  sort : SortMode
  limit : Option Int
  globalQueryTargets : GlobalQueryTargets
deriving Repr

/-- A `property:` filter value: `string | RegExp | null`. -/
inductive PropVal where
  | str (s : Str)
  | regex (rx : JsRegex)
  | null
deriving DecidableEq, Repr

/-- `ParsedQuery`. -/
structure ParsedQuery where
  globalQuery : Str
  filePatterns : List Str
  pathPatterns : List Str
  tagFilters : List Str
  contentPatterns : List Str
  linePatterns : List Str
  headingPatterns : List Str
  propertyFilters : List (Str × PropVal)
deriving Repr

/-- `Excerpt`. -/
structure ExcerptM where
  line : Int
  text : Str
  sources : List Str
deriving DecidableEq, Repr

/-! ## The document model (the host application's side of the interface)

A frontmatter value is modelled after JS coercion: either a scalar (already
passed through `String(...)`) or an array of such strings. -/

inductive FmValue where
  | str (s : Str)
  | arr (vs : List Str)
deriving DecidableEq, Repr

/-- A cached heading with its optional position data. -/
structure HeadingM where
  heading : Str
  line : Option Nat
  offset : Option Nat
deriving DecidableEq, Repr

/-- The metadata cache entry of a file (`getFileCache` result). -/
structure FileCache where
  frontmatter : Option (List (Str × FmValue))
  tags : List Str
  headings : List HeadingM
deriving DecidableEq, Repr

/-- File stat data. -/
structure FileStat where
  mtime : Int
  size : Nat
deriving DecidableEq, Repr

/-- A vault file; `body` is the outcome `vault.cachedRead` would have
(`Except.error` models a rejected read). -/
structure TFileM where
  path : Str
  name : Str
  stat : FileStat
  cache : Option FileCache
  body : Except Str Str
deriving Repr

/-! ## search.ts: string / pattern primitives -/

/-- `includesWithCase` (`search.ts` lines 156-161). -/
def includesWithCase (haystack needle : Str) (caseSensitive : Bool) : Bool :=
  if !caseSensitive then strIncludes (lower haystack) (lower needle)
  else strIncludes haystack needle

/-- `includesCI` (`search.ts` lines 166-169). -/
def includesCI (haystack needle : Str) : Bool :=
  if needle.isEmpty then false
  else strIncludes (lower haystack) (lower needle)

/-- The characters escaped by `globToRegExp`'s `esc`
(`/[.+^${}()|[\]\\]/`). -/
def isGlobEscCh (c : Char) : Bool :=
  c == '.' || c == '+' || c == '^' || c == '$' || c == '{' || c == '}' ||
  c == '(' || c == ')' || c == '|' || c == '[' || c == ']' || c == '\\'

/-- The regex source text built by `globToRegExp`. -/
def globPattern (glob : Str) : Str :=
  glob.flatMap fun ch =>
    if ch = '*' then ['.', '*']
    else if ch = '?' then ['.']
    else if isGlobEscCh ch then ['\\', ch]
    else [ch]

/-- `globToRegExp` (`search.ts` lines 141-151).  The source calls
`new RegExp` directly; the built pattern always lies in the supported subset,
so the fallback arm of the model (needed only to totalise the `Option` of
`mkJsRegex`) is unreachable. -/
def globToRegExp (glob : Str) (caseSensitive : Bool) : JsRegex :=
  let flags : Str := if caseSensitive then [] else ['i']
  match mkJsRegex (globPattern glob) flags with
  | some rx => rx
  | none => ⟨globPattern glob, flags, [], !caseSensitive⟩

/-- `matchPattern` (`search.ts` lines 194-204): explicit regex, else glob,
else substring. -/
def matchPattern (v pat : Str) (caseSensitive : Bool) : Bool :=
  match tryParseExplicitRegex pat with
  | some rx => rtest rx v
  | none =>
    if pat.contains '*' || pat.contains '?' then rtest (globToRegExp pat caseSensitive) v
    else includesWithCase v pat caseSensitive

/-! ## search.ts: facet extractors -/

/-- Strip one leading `#`. -/
def stripHash (s : Str) : Str :=
  match s with
  | '#' :: r => r
  | _ => s

/-- Add a raw in-body tag to the set (skips empty entries, strips `#`). -/
def addBodyTag (acc : List Str) (raw : Str) : List Str :=
  if raw.isEmpty then acc
  else
    let cleaned := stripHash raw
    if cleaned.isEmpty then acc else addUnique acc cleaned

/-- The `push` helper of `getTagsForFile` for frontmatter tag values. -/
def addFmTag (acc : List Str) (x : Str) : List Str :=
  let s := trimStr x
  if s.isEmpty then acc
  else
    let cleaned := stripHash s
    if cleaned.isEmpty then acc else addUnique acc cleaned

/-- `getTagsForFile` (`search.ts` lines 211-243): union of in-body tags and
frontmatter `tags` (string = comma/whitespace separated, or array), with `#`
stripped and duplicates removed, in insertion order. -/
def getTagsForFile (file : TFileM) : List Str :=
  let bodyTags : List Str :=
    match file.cache with
    | some cache => cache.tags
    | none => []
  let acc := bodyTags.foldl addBodyTag []
  let fmTags : Option FmValue :=
    match file.cache with
    | some cache =>
      match cache.frontmatter with
      | some fm => fm.lookup "tags".data
      | none => none
    | none => none
  match fmTags with
  | some (.arr vs) => vs.foldl addFmTag acc
  | some (.str s) => (splitRuns (fun c => c == ',' || isWsCh c) s).foldl addFmTag acc
  | none => acc

/-- JS `String(v)` on a frontmatter value (arrays join with commas). -/
def fmToString : FmValue → Str
  | .str s => s
  | .arr vs => (vs.intersperse ",".data).flatten

/-- Case-ruled string equality (`===` vs lower-cased `===`). -/
def eqWithCase (a b : Str) (caseSensitive : Bool) : Bool :=
  if caseSensitive then a == b else lower a == lower b

/-- `matchProperty` (`search.ts` lines 248-275). -/
def matchProperty (cache : Option FileCache) (name : Str) (value : PropVal)
    (caseSensitive : Bool) : Bool :=
  match cache with
  | none => false
  | some c =>
    match c.frontmatter with
    | none => false
    | some fm =>
      match fm.lookup name with
      | none => false
      | some v =>
        match value with
        | .null => true
        | .regex rx => rtest rx (fmToString v)
        | .str sv =>
          match v with
          | .arr items => items.any (fun item => eqWithCase item sv caseSensitive)
          | .str s => eqWithCase s sv caseSensitive

/-- `matchHeading` (`search.ts` lines 280-296). -/
def matchHeading (file : TFileM) (pattern : Str) (caseSensitive : Bool) : Bool :=
  let headings :=
    match file.cache with
    | some c => c.headings
    | none => []
  if headings.isEmpty then false
  else
    let rx := tryParseExplicitRegex pattern
    headings.any fun h =>
      if h.heading.isEmpty then false
      else
        match rx with
        | some r => rtest r h.heading
        | none => matchPattern h.heading pattern caseSensitive

/-! ## search.ts: line matching and excerpts -/

/-- Result of `countLineMatches_AND`. -/
structure LineRes where
  hasAnyHit : Bool
  hitCount : Nat
  hitLineIndices : List Nat
deriving DecidableEq, Repr

/-- The regex used for the `line:` literal: explicit parse, else
`new RegExp(literal, caseSensitive ? "" : "i")` (whose failure models a
thrown `SyntaxError`). -/
def lineLiteralRegex (lit : Str) (caseSensitive : Bool) : Except Str JsRegex :=
  match tryParseExplicitRegex lit with
  | some rx => .ok rx
  | none =>
    match mkJsRegex lit (if caseSensitive then [] else ['i']) with
    | some rx => .ok rx
    | none => .error "line literal: invalid regular expression".data

/-- `countLineMatches_AND` (`search.ts` lines 301-330).  A missing or empty
literal is falsy and passes through. -/
def countLineMatches_AND (text : Str) (andPatternLiteral : Option Str)
    (caseSensitive : Bool) : Except Str LineRes :=
  match andPatternLiteral with
  | none => .ok ⟨true, 0, []⟩
  | some lit =>
    if lit.isEmpty then .ok ⟨true, 0, []⟩
    else
      match lineLiteralRegex lit caseSensitive with
      | .error e => .error e
      | .ok rx =>
        let lines := splitLines text
        let indices := (lines.enum.filter (fun p => rtest rx p.2)).map (·.1)
        .ok ⟨!indices.isEmpty, indices.length, indices⟩

/-- `contentContains` (`search.ts` lines 335-339). -/
def contentContains (text pattern : Str) (caseSensitive : Bool) : Bool :=
  match tryParseExplicitRegex pattern with
  | some rx => rtest rx text
  | none => matchPattern text pattern caseSensitive

/-- `formatLineForLog` (`search.ts` lines 344-348), with the default
`maxLen = 240`. -/
def formatLineForLog (s : Str) : Str :=
  let cleaned := s.flatMap fun c =>
    if c = '\t' then [' ', ' ']
    else if c = '\r' || c.toNat = 0 then []
    else [c]
  if cleaned.length ≤ 240 then cleaned else cleaned.take 239 ++ ['…']

/-- Insertion-ordered `Map<number, Set<string>>`: add one reason. -/
def addReasonAt (reasons : List (Nat × List Str)) (idx : Nat) (r : Str) :
    List (Nat × List Str) :=
  if (reasons.lookup idx).isSome then
    reasons.map fun kv => if kv.1 = idx then (kv.1, addUnique kv.2 r) else kv
  else reasons ++ [(idx, [r])]

/-- Add a reason to every line index (in ascending order) satisfying `hit`;
models the `for` loops of `extractHitLines` (the bounds check of `addReason`
is vacuous there since indices come from the same `lines` array). -/
def addReasonsWhere (lines : List Str) (hit : Str → Bool) (r : Str)
    (reasons : List (Nat × List Str)) : List (Nat × List Str) :=
  lines.enum.foldl (fun acc p => if hit p.2 then addReasonAt acc p.1 r else acc) reasons

/-- Sort an association list by its numeric key (models
`Array.from(map.entries()).sort((a, b) => a[0] - b[0])`). -/
def sortByKeyNat (l : List (Nat × List Str)) : List (Nat × List Str) :=
  l.insertionSort fun a b => a.1 ≤ b.1

/-- `extractHitLines` (`search.ts` lines 358-424); the error case models the
`new RegExp` throw for an invalid `line:` literal. -/
def extractHitLines (text : Str) (parsed : ParsedQuery) (options : SearchOptions)
    (searchFn : Option (Str → Bool)) (regexForGlobalQuery : Option JsRegex)
    (exactPhrase : Option Str) (perFileLimit : Nat) : Except Str (List ExcerptM) :=
  let lines := splitLines text
  let r0 : List (Nat × List Str) := []
  let lineStep : Except Str (List (Nat × List Str)) :=
    match parsed.linePatterns with
    | [] => .ok r0
    | lit :: _ =>
      match lineLiteralRegex lit options.caseSensitive with
      | .error e => .error e
      | .ok rx => .ok (addReasonsWhere lines (rtest rx) "line".data r0)
  match lineStep with
  | .error e => .error e
  | .ok r1 =>
    let r2 := parsed.contentPatterns.foldl
      (fun acc pat =>
        addReasonsWhere lines (fun ln => contentContains ln pat options.caseSensitive)
          ("content:".data ++ pat) acc)
      r1
    let r3 :=
      if !parsed.globalQuery.isEmpty && options.globalQueryTargets.body then
        match options.mode, searchFn, regexForGlobalQuery, exactPhrase with
        | .simple, some f, _, _ => addReasonsWhere lines f "globalQuery:simple".data r2
        | .fuzzy, some f, _, _ => addReasonsWhere lines f "globalQuery:fuzzy".data r2
        | .regex, _, some rx, _ => addReasonsWhere lines (rtest rx) "globalQuery:regex".data r2
        | .exact, _, _, some p =>
          if p.isEmpty then r2
          else addReasonsWhere lines (fun ln => includesCI ln p) "globalQuery:exact".data r2
        | _, _, _, _ => r2
      else r2
    .ok (((sortByKeyNat r3).map fun kv =>
      (⟨(kv.1 : Int), formatLineForLog (lines.getD kv.1 []), kv.2⟩ : ExcerptM)).take perFileLimit)

/-- `offsetToLine` (`search.ts` lines 429-437). -/
def offsetToLine (text : Str) (offset : Nat) : Nat :=
  (text.take (min offset text.length)).count '\n'

/-- Resolve a heading's line index: stored line, else derived from the stored
character offset. -/
def headingLineIdx (text : Str) (h : HeadingM) : Option Nat :=
  match h.line with
  | some i => some i
  | none =>
    match h.offset with
    | some off => some (offsetToLine text off)
    | none => none

/-- `buildHeadingExcerpts` (`search.ts` lines 444-492). -/
def buildHeadingExcerpts (file : TFileM) (text : Str) (patterns : List Str)
    (caseSensitive : Bool) : List ExcerptM :=
  if patterns.isEmpty then []
  else
    let headings :=
      match file.cache with
      | some c => c.headings
      | none => []
    if headings.isEmpty then []
    else
      let lines := splitLines text
      let lineToSources : List (Nat × List Str) :=
        headings.foldl
          (fun acc h =>
            if h.heading.isEmpty then acc
            else
              patterns.foldl
                (fun acc2 pat =>
                  let rx := tryParseExplicitRegex pat
                  let ok :=
                    match rx with
                    | some r => rtest r h.heading
                    | none => matchPattern h.heading pat caseSensitive
                  if !ok then acc2
                  else
                    match headingLineIdx text h with
                    | none => acc2
                    | some idx => addReasonAt acc2 idx ("headings:".data ++ pat))
                acc)
          []
      (sortByKeyNat lineToSources).map fun kv =>
        (⟨(kv.1 : Int), lines.getD kv.1 [], kv.2⟩ : ExcerptM)

/-! ## search.ts: excerpt merging -/

/-- One entry of the merge map: display text and insertion-ordered source
set. -/
abbrev MergeEntry := Str × List Str

/-- The `push` body of `mergeExcerpts` for a single excerpt. -/
def pushExcerpt (m : List (Int × MergeEntry)) (ex : ExcerptM) : List (Int × MergeEntry) :=
  if (m.lookup ex.line).isSome then
    m.map fun kv =>
      if kv.1 = ex.line then
        (kv.1,
         (if kv.2.1.isEmpty && !ex.text.isEmpty then ex.text else kv.2.1,
          addAllUnique kv.2.2 ex.sources))
      else kv
  else m ++ [(ex.line, (ex.text, dedupOrdered ex.sources))]

/-- Sort the merge map by line index. -/
def sortByKeyInt (l : List (Int × MergeEntry)) : List (Int × MergeEntry) :=
  l.insertionSort fun a b => a.1 ≤ b.1

/-- `mergeExcerpts` (`search.ts` lines 497-524): union by line index (sources
unioned, first non-empty text kept), sort ascending, cap. -/
def mergeExcerpts (base add : List ExcerptM) (perFileLimit : Nat) : List ExcerptM :=
  let m := (base ++ add).foldl pushExcerpt []
  ((sortByKeyInt m).map fun kv => (⟨kv.1, kv.2.1, kv.2.2⟩ : ExcerptM)).take perFileLimit

/-! ## search.ts: the Global Query -/

/-- `testGlobalString` (`search.ts` lines 548-567); the first component is the
hit flag, the second the count. -/
def testGlobalString (s : Str) (searchFn : Option (Str → Bool))
    (regex : Option JsRegex) (mode : SearchMode) (exactPhrase : Option Str) :
    Bool × Nat :=
  if s.isEmpty then (false, 0)
  else
    match mode, searchFn, regex, exactPhrase with
    | .regex, _, some rx, _ =>
      let count := countRegexMatches rx s
      (decide (0 < count), count)
    | .simple, some f, _, _ => let r := f s; (r, if r then 1 else 0)
    | .fuzzy, some f, _, _ => let r := f s; (r, if r then 1 else 0)
    | .exact, _, _, some p =>
      if p.isEmpty then (false, 0)
      else let r := includesCI s p; (r, if r then 1 else 0)
    | _, _, _, _ => (false, 0)

/-- String form of a mode (for excerpt source tags). -/
def modeStr : SearchMode → Str
  | .fuzzy => "fuzzy".data
  | .simple => "simple".data
  | .regex => "regex".data
  | .exact => "exact".data

/-- The key/value strings a frontmatter map contributes to the Global Query,
in iteration order (each key followed by its stringified values). -/
def fmStrings (fm : List (Str × FmValue)) : List Str :=
  fm.flatMap fun kv =>
    kv.1 ::
      (match kv.2 with
       | .arr vs => vs
       | .str s => [s])

/-- The heading texts tested by the Global Query (empty ones are skipped). -/
def headingTexts (cache : Option FileCache) : List Str :=
  let hs : List HeadingM :=
    match cache with
    | some c => c.headings
    | none => []
  (hs.map (fun h => h.heading)).filter (fun t => !t.isEmpty)

/-- `buildGlobalSyntheticExcerpts` (`search.ts` lines 573-689). -/
def buildGlobalSyntheticExcerpts (text name path : Str) (cache : Option FileCache)
    (targets : GlobalQueryTargets) (searchFn : Option (Str → Bool))
    (regex : Option JsRegex) (mode : SearchMode) (exactPhrase : Option Str) :
    List ExcerptM :=
  let lines := splitLines text
  let synth : Str → Str → ExcerptM := fun label value =>
    ⟨-1, ('[' :: label) ++ (']' :: ' ' :: value),
     ["globalQuery:".data ++ modeStr mode ++ (':' :: label)]⟩
  let exName : List ExcerptM :=
    if targets.name && (testGlobalString name searchFn regex mode exactPhrase).1 then
      [synth "name".data name]
    else []
  let exPath : List ExcerptM :=
    if targets.path && (testGlobalString path searchFn regex mode exactPhrase).1 then
      [synth "path".data path]
    else []
  let exFm : List ExcerptM :=
    if targets.frontmatter then
      match cache with
      | some c =>
        match c.frontmatter with
        | some fm =>
          fm.flatMap fun kv =>
            (if (testGlobalString kv.1 searchFn regex mode exactPhrase).1 then
               [synth "frontmatter-key".data kv.1]
             else []) ++
            ((match kv.2 with
              | .arr vs => vs
              | .str s => [s]).flatMap fun v =>
              if (testGlobalString v searchFn regex mode exactPhrase).1 then
                [synth "frontmatter".data (kv.1 ++ (':' :: ' ' :: v))]
              else [])
        | none => []
      | none => []
    else []
  let exTags : List ExcerptM :=
    if targets.tags then
      (getTagsForFile ⟨path, name, ⟨0, 0⟩, cache, .ok text⟩).flatMap fun tg =>
        if (testGlobalString tg searchFn regex mode exactPhrase).1 then
          [synth "tag".data tg]
        else []
    else []
  let exHeadings : List ExcerptM :=
    if targets.headings then
      (match cache with
       | some c => c.headings
       | none => []).flatMap fun h =>
        if h.heading.isEmpty then []
        else if (testGlobalString h.heading searchFn regex mode exactPhrase).1 then
          match headingLineIdx text h with
          | some idx =>
            [⟨(idx : Int), "[headings] ".data ++ lines.getD idx h.heading,
              ["globalQuery:".data ++ modeStr mode ++ ":headings".data]⟩]
          | none =>
            [⟨-1, "[headings] ".data ++ h.heading,
              ["globalQuery:".data ++ modeStr mode ++ ":headings".data]⟩]
        else []
    else []
  exName ++ exPath ++ exFm ++ exTags ++ exHeadings

/-- `buildLineRegexLiteral_AND` (`search.ts` lines 695-700). -/
def buildLineRegexLiteral_AND (terms : List Str) (caseSensitive : Bool) : Str :=
  let escapeRegex : Str → Str := fun s =>
    s.flatMap fun c => if isGlobEscCh c || c == '*' || c == '?' then ['\\', c] else [c]
  let core := (terms.flatMap fun t => "(?=.*".data ++ escapeRegex t ++ [')']) ++ ".*".data
  ('/' :: '^' :: core) ++ ('$' :: '/' :: (if caseSensitive then [] else ['i']))

/-! ## search.ts: runSearch -/

/-- The per-facet breakdown while evaluating the Global Query (fields are
`none` until the facet records a hit, mirroring the optional JS fields). -/
structure GqBk where
  body : Option Nat
  name : Option Nat
  path : Option Nat
  frontmatter : Option Nat
  tags : Option Nat
  headings : Option Nat
deriving DecidableEq, Repr

/-- The final per-facet breakdown (missing fields read as 0). -/
structure GqBkOut where
  body : Nat
  name : Nat
  path : Nat
  frontmatter : Nat
  tags : Nat
  headings : Nat
deriving DecidableEq, Repr

/-- `FilterHitStats`. -/
structure FilterHitStatsM where
  file : Option Nat
  path : Option Nat
  tag : Option Nat
  property : Option Nat
  headings : Option Nat
  content : Option Nat
  line : Option Nat
  globalQuery : Option Nat
  globalQueryBreakdown : Option GqBkOut
deriving DecidableEq, Repr

/-- Line-hit detail of a match log entry. -/
structure LineDetail where
  patternLiteral : Option Str
  hitCount : Nat
  hitLineIndices : List Nat
deriving DecidableEq, Repr

/-- `MatchLog`.  The `matched` echo block (a copy of the query inputs) and the
opaque external `searchResult` payload are omitted from the model. -/
structure MatchLogM where
  path : Str
  name : Str
  mtime : Int
  size : Nat
  line : Option LineDetail
  regexMatchCount : Option Nat
  excerpts : List ExcerptM
  filterHits : FilterHitStatsM
deriving DecidableEq, Repr

/-- Body-facet hit of the Global Query (the acceptance condition of the body
block, `search.ts` lines 842-869). -/
def gqBodyHit (mode : SearchMode) (searchFn : Option (Str → Bool))
    (regex : Option JsRegex) (exactPhrase : Option Str) (text : Str) : Bool :=
  match mode, searchFn, regex, exactPhrase with
  | .simple, some f, _, _ => f text
  | .fuzzy, some f, _, _ => f text
  | .regex, _, some rx, _ => decide (0 < countRegexMatches rx text)
  | .exact, _, _, some p => !p.isEmpty && includesCI text p
  | _, _, _, _ => false

/-- Body-facet breakdown count recorded on a body hit. -/
def gqBodyCount (mode : SearchMode) (searchFn : Option (Str → Bool))
    (regex : Option JsRegex) (exactPhrase : Option Str) (text : Str) : Nat :=
  let lines := splitLines text
  match mode, searchFn, regex, exactPhrase with
  | .simple, some f, _, _ => (lines.filter f).length
  | .fuzzy, some f, _, _ => (lines.filter f).length
  | .regex, _, some rx, _ => countRegexMatches rx text
  | .exact, _, _, some p => (lines.filter fun ln => includesCI ln p).length
  | _, _, _, _ => 0

/-- Sum of hit counts over a list of facet strings (the `localCount`
accumulation; only hits contribute, and a hit's count is positive). -/
def gqLocalCount (strings : List Str) (searchFn : Option (Str → Bool))
    (regex : Option JsRegex) (mode : SearchMode) (exactPhrase : Option Str) : Nat :=
  (strings.map fun s =>
    let r := testGlobalString s searchFn regex mode exactPhrase
    if r.1 then r.2 else 0).sum

/-- The frontmatter map of an optional cache (the `cache?.frontmatter`
access). -/
def cacheFrontmatter : Option FileCache → Option (List (Str × FmValue))
  | some c => c.frontmatter
  | none => none

/-- One facet step of the Global Query phase: on a hit (`cond`), set the hit
flag, update the breakdown, and add the regex-mode count; otherwise leave the
state unchanged. -/
def gqStep (st : Bool × GqBk × Nat) (cond : Bool) (upd : GqBk → GqBk) (cnt : Nat) :
    Bool × GqBk × Nat :=
  if cond then (true, upd st.2.1, st.2.2 + cnt) else st

/-- The Global Query phase of `runSearch` (`search.ts` lines 834-951):
sequentially examines the enabled facets, accumulating the hit flag, the
per-facet breakdown, and the regex-mode total match count.  Each block's
guards (`parsed.globalQuery && targets.x`, the presence checks, and the hit
test) are folded into the step's condition. -/
def gqPhase (parsed : ParsedQuery) (opts : SearchOptions)
    (searchFn : Option (Str → Bool)) (regex : Option JsRegex)
    (exactPhrase : Option Str) (file : TFileM) (text : Str) :
    Bool × GqBk × Nat :=
  let gq := parsed.globalQuery
  let targets := opts.globalQueryTargets
  let mode := opts.mode
  let st0 : Bool × GqBk × Nat := (gq.isEmpty, ⟨none, none, none, none, none, none⟩, 0)
  -- body
  let bodyC := gqBodyCount mode searchFn regex exactPhrase text
  let st1 := gqStep st0
    (!gq.isEmpty && targets.body && gqBodyHit mode searchFn regex exactPhrase text)
    (fun bk => { bk with body := some bodyC })
    (if mode = .regex then bodyC else 0)
  -- name
  let rName := testGlobalString file.name searchFn regex mode exactPhrase
  let st2 := gqStep st1 (!gq.isEmpty && targets.name && rName.1)
    (fun bk => { bk with name := some (bk.name.getD 0 + rName.2) })
    (if mode = .regex then rName.2 else 0)
  -- path
  let rPath := testGlobalString file.path searchFn regex mode exactPhrase
  let st3 := gqStep st2 (!gq.isEmpty && targets.path && rPath.1)
    (fun bk => { bk with path := some (bk.path.getD 0 + rPath.2) })
    (if mode = .regex then rPath.2 else 0)
  -- frontmatter (keys and values)
  let fmL := cacheFrontmatter file.cache
  let lcF := gqLocalCount (fmStrings (fmL.getD [])) searchFn regex mode exactPhrase
  let st4 := gqStep st3 (!gq.isEmpty && targets.frontmatter && fmL.isSome && decide (0 < lcF))
    (fun bk => { bk with frontmatter := some (bk.frontmatter.getD 0 + lcF) })
    (if mode = .regex then lcF else 0)
  -- tags
  let lcT := gqLocalCount (getTagsForFile file) searchFn regex mode exactPhrase
  let st5 := gqStep st4 (!gq.isEmpty && targets.tags && decide (0 < lcT))
    (fun bk => { bk with tags := some (bk.tags.getD 0 + lcT) })
    (if mode = .regex then lcT else 0)
  -- headings
  let lcH := gqLocalCount (headingTexts file.cache) searchFn regex mode exactPhrase
  gqStep st5 (!gq.isEmpty && targets.headings && decide (0 < lcH))
    (fun bk => { bk with headings := some (bk.headings.getD 0 + lcH) })
    (if mode = .regex then lcH else 0)

/-- One `tag:` filter against the tag set (explicit regex against each tag,
else exact membership). -/
def tagFilterMatches (tagSet : List Str) (tg : Str) : Bool :=
  match tryParseExplicitRegex tg with
  | some rx => tagSet.any (rtest rx)
  | none => tagSet.contains tg

/-- Gate 1: every `file:` pattern matches the file name. -/
def fileGate (parsed : ParsedQuery) (caseSensitive : Bool) (name : Str) : Bool :=
  parsed.filePatterns.all fun pat => matchPattern name pat caseSensitive

/-- Gate 2: every `path:` pattern matches the file path. -/
def pathGate (parsed : ParsedQuery) (caseSensitive : Bool) (path : Str) : Bool :=
  parsed.pathPatterns.all fun pat => matchPattern path pat caseSensitive

/-- Gate 3: every `tag:` filter matches some tag of the file. -/
def tagGate (parsed : ParsedQuery) (file : TFileM) : Bool :=
  parsed.tagFilters.all (tagFilterMatches (getTagsForFile file))

/-- Gate 4: every `property:` filter is satisfied. -/
def propertyGate (parsed : ParsedQuery) (caseSensitive : Bool)
    (cache : Option FileCache) : Bool :=
  parsed.propertyFilters.all fun pf => matchProperty cache pf.1 pf.2 caseSensitive

/-- Gate 5: every `headings:` pattern matches some heading. -/
def headingGate (parsed : ParsedQuery) (caseSensitive : Bool) (file : TFileM) : Bool :=
  parsed.headingPatterns.all fun pat => matchHeading file pat caseSensitive

/-- All five metadata-only gates (evaluated before the body read). -/
def metadataGates (parsed : ParsedQuery) (caseSensitive : Bool) (file : TFileM) : Bool :=
  fileGate parsed caseSensitive file.name &&
  pathGate parsed caseSensitive file.path &&
  tagGate parsed file &&
  propertyGate parsed caseSensitive file.cache &&
  headingGate parsed caseSensitive file

/-- Gate 7: every `content:` pattern occurs in the body. -/
def contentGate (parsed : ParsedQuery) (caseSensitive : Bool) (text : Str) : Bool :=
  parsed.contentPatterns.all fun pat => contentContains text pat caseSensitive

/-- Outcome of processing one file inside the `runSearch` loop.  `skipNoRead`
is a rejection by gates 1-5 (before the body read); every other outcome comes
after the body read was attempted.  `failed` models an exception escaping the
loop body: a rejected `cachedRead` or a `new RegExp` throw. -/
inductive FileOutcome where
  | skipNoRead
  | failed (e : Str)
  | skipAfterRead (lineHits : Nat)
  | accepted (entry : MatchLogM) (lineHits : Nat)
deriving Repr

/-- Did this outcome involve a body read attempt? -/
def FileOutcome.didRead : FileOutcome → Bool
  | .skipNoRead => false
  | _ => true

/-- The final breakdown record built from the running one. -/
def gqBkOut (bk : GqBk) : GqBkOut :=
  ⟨bk.body.getD 0, bk.name.getD 0, bk.path.getD 0,
   bk.frontmatter.getD 0, bk.tags.getD 0, bk.headings.getD 0⟩

/-- The per-filter hit statistics of an accepted file
(`search.ts` lines 991-1050). -/
def buildFilterHits (parsed : ParsedQuery) (caseSensitive : Bool) (file : TFileM)
    (text : Str) (lineDetail : Option LineDetail) (bk : GqBk) : FilterHitStatsM :=
  let name := file.name
  let path := file.path
  { file :=
      if parsed.filePatterns.isEmpty then none
      else some ((parsed.filePatterns.filter fun pat => matchPattern name pat caseSensitive).length)
    path :=
      if parsed.pathPatterns.isEmpty then none
      else some ((parsed.pathPatterns.filter fun pat => matchPattern path pat caseSensitive).length)
    tag :=
      if parsed.tagFilters.isEmpty then none
      else some ((parsed.tagFilters.filter (tagFilterMatches (getTagsForFile file))).length)
    property :=
      if parsed.propertyFilters.isEmpty then none
      else some ((parsed.propertyFilters.filter fun pf =>
        matchProperty file.cache pf.1 pf.2 caseSensitive).length)
    headings :=
      if parsed.headingPatterns.isEmpty then none
      else some ((parsed.headingPatterns.filter fun pat =>
        matchHeading file pat caseSensitive).length)
    content :=
      if parsed.contentPatterns.isEmpty then none
      else some ((parsed.contentPatterns.filter fun pat =>
        contentContains text pat caseSensitive).length)
    line :=
      if parsed.linePatterns.isEmpty then none
      else some ((lineDetail.map (·.hitCount)).getD 0)
    globalQuery :=
      if parsed.globalQuery.isEmpty then none
      else
        let o := gqBkOut bk
        some (o.body + o.name + o.path + o.frontmatter + o.tags + o.headings)
    globalQueryBreakdown :=
      if parsed.globalQuery.isEmpty then none else some (gqBkOut bk) }

/-- The body of the `for` loop of `runSearch` for one file
(`search.ts` lines 765-1075): the five metadata gates, the body read, the
content and line gates, the Global Query phase, and the log-entry build. -/
def processFile (parsed : ParsedQuery) (opts : SearchOptions)
    (searchFn : Option (Str → Bool)) (regexGQ : Option JsRegex)
    (exactPhrase : Option Str) (file : TFileM) : FileOutcome :=
  let cs := opts.caseSensitive
  if !metadataGates parsed cs file then .skipNoRead
  else
    match file.body with
    | .error e => .failed e
    | .ok text =>
      if !contentGate parsed cs text then .skipAfterRead 0
      else
        let lineStep : Except Str (Option (Option LineDetail × Nat)) :=
          if parsed.linePatterns.isEmpty then .ok (some (none, 0))
          else
            match countLineMatches_AND text parsed.linePatterns.head? cs with
            | .error e => .error e
            | .ok r =>
              if !r.hasAnyHit then .ok none
              else .ok (some (some ⟨parsed.linePatterns.head?, r.hitCount, r.hitLineIndices⟩,
                               r.hitCount))
        match lineStep with
        | .error e => .failed e
        | .ok none => .skipAfterRead 0
        | .ok (some (lineDetail, lineHits)) =>
          match gqPhase parsed opts searchFn regexGQ exactPhrase file text with
          | (gqHit, bk, regexMatchTotal) =>
            if !gqHit then .skipAfterRead lineHits
            else
              match extractHitLines text parsed opts searchFn regexGQ exactPhrase 10 with
              | .error e => .failed e
              | .ok baseExcerpts =>
                let headingFilterExcerpts :=
                  buildHeadingExcerpts file text parsed.headingPatterns cs
                let globalSyntheticExcerpts :=
                  buildGlobalSyntheticExcerpts text file.name file.path file.cache
                    opts.globalQueryTargets searchFn regexGQ opts.mode exactPhrase
                let merged1 := mergeExcerpts baseExcerpts headingFilterExcerpts 10
                let merged := mergeExcerpts merged1 globalSyntheticExcerpts 10
                .accepted
                  { path := file.path
                    name := file.name
                    mtime := file.stat.mtime
                    size := file.stat.size
                    line := lineDetail
                    regexMatchCount :=
                      if opts.mode = .regex && !parsed.globalQuery.isEmpty then
                        some regexMatchTotal
                      else none
                    excerpts := merged
                    filterHits := buildFilterHits parsed cs file text lineDetail bk }
                  lineHits

/-- Result of `runSearch` (the summary's wall-clock `timeMs` is not
modelled). -/
structure RunResult where
  matchList : List MatchLogM
  matchedFiles : Nat
  totalLineHits : Nat
deriving Repr

/-- The regex prepared for the Global Query (`search.ts` lines 741-748):
explicit literal with `g` stripped, else the whole query with the `i` flag;
an invalid pattern models the `new RegExp` throw. -/
def gqRegexSetup (globalQuery : Str) (mode : SearchMode) : Except Str (Option JsRegex) :=
  if mode = .regex && !globalQuery.isEmpty then
    match tryParseExplicitRegex globalQuery with
    | some explicit =>
      match mkJsRegex explicit.source (explicit.flags.filter fun c => c ≠ 'g') with
      | some rx => .ok (some rx)
      | none => .error "global query: invalid regular expression".data
    | none =>
      match mkJsRegex globalQuery ['i'] with
      | some rx => .ok (some rx)
      | none => .error "global query: invalid regular expression".data
  else .ok none

/-- Code-point lexicographic order (model of `localeCompare`). -/
def strLeB : Str → Str → Bool
  | [], _ => true
  | _ :: _, [] => false
  | a :: as, b :: bs =>
    if a.toNat < b.toNat then true
    else if b.toNat < a.toNat then false
    else strLeB as bs

/-- The pre-sort of the corpus (`search.ts` lines 751-758). -/
def sortFiles (sort : SortMode) (files : List TFileM) : List TFileM :=
  match sort with
  | .mtimeDesc => files.insertionSort fun a b => b.stat.mtime ≤ a.stat.mtime
  | .mtimeAsc => files.insertionSort fun a b => a.stat.mtime ≤ b.stat.mtime
  | .pathAsc => files.insertionSort fun a b => strLeB a.path b.path = true

/-- The `for` loop of `runSearch`: accumulates matches and counters, aborts
on a failed file, and breaks once `maxResults` entries are collected. -/
def searchLoop (parsed : ParsedQuery) (opts : SearchOptions)
    (searchFn : Option (Str → Bool)) (regexGQ : Option JsRegex)
    (exactPhrase : Option Str) (maxResults : Option Int) :
    List TFileM → List MatchLogM → Nat → Nat → Except Str RunResult
  | [], matchList, matchedFiles, totalLineHits => .ok ⟨matchList, matchedFiles, totalLineHits⟩
  | f :: fs, matchList, matchedFiles, totalLineHits =>
    match processFile parsed opts searchFn regexGQ exactPhrase f with
    | .skipNoRead =>
      searchLoop parsed opts searchFn regexGQ exactPhrase maxResults fs
        matchList matchedFiles totalLineHits
    | .failed e => .error e
    | .skipAfterRead lh =>
      searchLoop parsed opts searchFn regexGQ exactPhrase maxResults fs
        matchList matchedFiles (totalLineHits + lh)
    | .accepted entry lh =>
      let matchList' := matchList ++ [entry]
      if (match maxResults with
          | some m => decide (m ≤ (matchList'.length : Int))
          | none => false) then
        .ok ⟨matchList', matchedFiles + 1, totalLineHits + lh⟩
      else
        searchLoop parsed opts searchFn regexGQ exactPhrase maxResults fs
          matchList' (matchedFiles + 1) (totalLineHits + lh)

/-- `runSearch` (`search.ts` lines 706-1088).  `prepS` and `prepF` are the
external `prepareSimpleSearch` / `prepareFuzzySearch` primitives.  The
returned `Except.error` models a rejection of the `runSearch` promise. -/
def runSearch (prepS prepF : Str → (Str → Bool)) (files : List TFileM)
    (parsed : ParsedQuery) (opts : SearchOptions) : Except Str RunResult :=
  if files.isEmpty then .ok ⟨[], 0, 0⟩
  else
    let gq := parsed.globalQuery
    let searchFn : Option (Str → Bool) :=
      if !gq.isEmpty then
        match opts.mode with
        | .simple => some (prepS gq)
        | .fuzzy => some (prepF gq)
        | _ => none
      else none
    let exactPhrase : Option Str :=
      if opts.mode = .exact && !gq.isEmpty then some (trimStr gq) else none
    match gqRegexSetup gq opts.mode with
    | .error e => .error e
    | .ok regexGQ =>
      let maxResults : Option Int :=
        match opts.limit with
        | some n => if 0 < n then some n else none
        | none => none
      searchLoop parsed opts searchFn regexGQ exactPhrase maxResults
        (sortFiles opts.sort files) [] 0 0

/-! # Claims -/

/-- C6: for line terms `["alice","bob"]` and the body
`"line1: alice only\nline2: alice and bob\n"`, the line filter reports
`hitCount = 1` and `hitLineIndices = [1]` (0-based): exactly one line
contains both terms. -/
theorem countLineMatches_AND_alice_bob :
    countLineMatches_AND "line1: alice only\nline2: alice and bob\n".data
      (some (buildLineRegexLiteral_AND ["alice".data, "bob".data] false)) false =
      .ok ⟨true, 1, [1]⟩ := by
  rfl

/-- C7: a file's body is read if and only if all five metadata-only gates
(file name, path, tag, property, heading) have passed; a document failing any
of them never triggers a body read. -/
theorem processFile_read_iff_metadata_gates (parsed : ParsedQuery)
    (opts : SearchOptions) (searchFn : Option (Str → Bool))
    (regexGQ : Option JsRegex) (exactPhrase : Option Str) (file : TFileM) :
    (processFile parsed opts searchFn regexGQ exactPhrase file).didRead = true ↔
      (fileGate parsed opts.caseSensitive file.name = true ∧
       pathGate parsed opts.caseSensitive file.path = true ∧
       tagGate parsed file = true ∧
       propertyGate parsed opts.caseSensitive file.cache = true ∧
       headingGate parsed opts.caseSensitive file = true) := by
  have hm : metadataGates parsed opts.caseSensitive file = true ↔
      (fileGate parsed opts.caseSensitive file.name = true ∧
       pathGate parsed opts.caseSensitive file.path = true ∧
       tagGate parsed file = true ∧
       propertyGate parsed opts.caseSensitive file.cache = true ∧
       headingGate parsed opts.caseSensitive file = true) := by
    simp [metadataGates, Bool.and_eq_true, and_assoc]
  rw [← hm]
  unfold processFile
  by_cases h : metadataGates parsed opts.caseSensitive file = true
  · simp only [h, Bool.not_true, Bool.false_eq_true, if_false, iff_true]
    repeat' split
    all_goals rfl
  · have h' : metadataGates parsed opts.caseSensitive file = false := by
      revert h; cases metadataGates parsed opts.caseSensitive file <;> simp
    simp [h', FileOutcome.didRead]

/-! ## C3: body-read failure handling -/

/-- An all-pass-through query (no filters, empty global query). -/
def emptyParsedQuery : ParsedQuery := ⟨[], [], [], [], [], [], [], []⟩

/-- Exact-mode options with every facet enabled and no limit. -/
def exactOptsAll : SearchOptions :=
  ⟨.exact, false, .pathAsc, none, ⟨true, true, true, true, true, true⟩⟩

/-- A file whose body read is rejected. -/
def fileReadFails : TFileM :=
  ⟨"a.md".data, "a.md".data, ⟨5, 10⟩, some ⟨none, [], []⟩, .error "disk".data⟩

/-- A file whose body reads fine. -/
def fileReadOk : TFileM :=
  ⟨"b.md".data, "b.md".data, ⟨3, 10⟩, some ⟨none, [], []⟩, .ok "hello".data⟩

/-- C3 counterexample: with a two-file corpus whose first file's body read
fails (and which passes all metadata gates), `runSearch` returns the read
error — the overall call fails and the healthy rest of the corpus yields no
partial results, contradicting the claim that a per-document body-read
failure never causes the overall search call to fail. -/
theorem runSearch_aborts_on_read_failure :
    runSearch (fun _ _ => false) (fun _ _ => false) [fileReadFails, fileReadOk]
      emptyParsedQuery exactOptsAll = .error "disk".data := by
  rfl

/-- C3 amended: a body-read failure on a document that passed the metadata
gates is not caught: the per-file step reports the failure, and the search
loop aborts with that error instead of skipping the document and returning
partial results. -/
theorem read_failure_propagates (parsed : ParsedQuery) (opts : SearchOptions)
    (searchFn : Option (Str → Bool)) (regexGQ : Option JsRegex)
    (exactPhrase : Option Str) (maxResults : Option Int) (e : Str) (f : TFileM)
    (fs : List TFileM) (acc : List MatchLogM) (mf tlh : Nat) :
    (metadataGates parsed opts.caseSensitive f = true → f.body = .error e →
      processFile parsed opts searchFn regexGQ exactPhrase f = .failed e) ∧
    (processFile parsed opts searchFn regexGQ exactPhrase f = .failed e →
      searchLoop parsed opts searchFn regexGQ exactPhrase maxResults (f :: fs) acc mf tlh =
        .error e) := by
  constructor
  · intro hg hb
    unfold processFile
    simp [hg, hb]
  · intro hp
    unfold searchLoop
    simp [hp]

/-- Witness for the amended C3 statement at a concrete corpus. -/
theorem read_failure_propagates_witness :
    metadataGates emptyParsedQuery false fileReadFails = true ∧
    fileReadFails.body = .error "disk".data ∧
    searchLoop emptyParsedQuery exactOptsAll none none (some "q".data) none
      [fileReadFails, fileReadOk] [] 0 0 = .error "disk".data := by
  refine ⟨by rfl, by rfl, ?_⟩
  exact (read_failure_propagates emptyParsedQuery exactOptsAll none none
      (some "q".data) none "disk".data fileReadFails [fileReadOk] [] 0 0).2
    ((read_failure_propagates emptyParsedQuery exactOptsAll none none
      (some "q".data) none "disk".data fileReadFails [fileReadOk] [] 0 0).1
      (by rfl) (by rfl))

/-- C2: `matchPattern` tries interpretations in priority order: an explicit
`/body/flags` literal is tested as that regex (so `/a*b/` is regex, not
glob — e.g. on `"aab"` the regex matches while the glob reading would not);
otherwise a pattern containing `*` or `?` is tested as the glob-compiled
regex; otherwise as substring containment under the case rule; and a
malformed explicit literal such as `/a(/` never throws but falls through to
the later interpretations. -/
theorem matchPattern_priority (v pat : Str) (cs : Bool) :
    (∀ rx, tryParseExplicitRegex pat = some rx → matchPattern v pat cs = rtest rx v) ∧
    (tryParseExplicitRegex pat = none → (pat.contains '*' || pat.contains '?') = true →
      matchPattern v pat cs = rtest (globToRegExp pat cs) v) ∧
    (tryParseExplicitRegex pat = none → pat.contains '*' = false → pat.contains '?' = false →
      matchPattern v pat cs = includesWithCase v pat cs) ∧
    (matchPattern "aab".data "/a*b/".data cs = true ∧
      rtest (globToRegExp "/a*b/".data cs) "aab".data = false) ∧
    (tryParseExplicitRegex "/a(/".data = none ∧
      matchPattern "x/a(/y".data "/a(/".data cs = true) := by
  refine ⟨?_, ?_, ?_, ?_, ?_⟩
  · intro rx h
    simp [matchPattern, h]
  · intro h hg
    simp only [matchPattern, h]
    rw [if_pos hg]
  · intro h h1 h2
    simp only [matchPattern, h]
    rw [if_neg (by simp only [Bool.or_eq_true]
                   rintro (hc | hc) <;> simp_all)]
  · cases cs <;> exact ⟨by decide, by decide⟩
  · cases cs <;> exact ⟨by decide, by decide⟩

/-- Witness for C2 at concrete inputs for each of the three branches. -/
theorem matchPattern_priority_witness :
    (tryParseExplicitRegex "/ab/".data =
        some ⟨"ab".data, [], [.simple (.one (.lit 'a')), .simple (.one (.lit 'b'))], false⟩ ∧
      matchPattern "xaby".data "/ab/".data true =
        rtest ⟨"ab".data, [], [.simple (.one (.lit 'a')), .simple (.one (.lit 'b'))], false⟩
          "xaby".data) ∧
    (tryParseExplicitRegex "a*md".data = none ∧
      ("a*md".data.contains '*' || "a*md".data.contains '?') = true ∧
      matchPattern "xa__md".data "a*md".data true =
        rtest (globToRegExp "a*md".data true) "xa__md".data) ∧
    (tryParseExplicitRegex "hello".data = none ∧
      matchPattern "say hello!".data "hello".data false =
        includesWithCase "say hello!".data "hello".data false) := by
  refine ⟨⟨by decide, ?_⟩, ⟨by decide, by decide, ?_⟩, ⟨by decide, ?_⟩⟩
  · exact (matchPattern_priority "xaby".data "/ab/".data true).1 _ (by decide)
  · exact (matchPattern_priority "xa__md".data "a*md".data true).2.1 (by decide) (by decide)
  · exact (matchPattern_priority "say hello!".data "hello".data false).2.2.1 (by decide)
      (by decide) (by decide)

/-! ## C8: exact-mode free text ignores caseSensitive -/

/-- C8: in exact mode the free-text hit decision is independent of the
`caseSensitive` option (the whole Global Query phase is unchanged when the
flag is flipped), and the exact-mode facet test depends only on the
lower-cased facet string — it is always case-insensitive.  `caseSensitive`
reaches only the dedicated-filter primitives. -/
theorem exact_mode_ignores_caseSensitive :
    (∀ (parsed : ParsedQuery) (opts : SearchOptions) (searchFn : Option (Str → Bool))
       (regexGQ : Option JsRegex) (exactPhrase : Option Str) (file : TFileM)
       (text : Str) (b : Bool),
       opts.mode = .exact →
       gqPhase parsed { opts with caseSensitive := b } searchFn regexGQ exactPhrase file text =
         gqPhase parsed opts searchFn regexGQ exactPhrase file text) ∧
    (∀ (s t : Str) (searchFn : Option (Str → Bool)) (regexGQ : Option JsRegex) (p : Str),
       lower s = lower t →
       (testGlobalString s searchFn regexGQ .exact (some p)).1 =
         (testGlobalString t searchFn regexGQ .exact (some p)).1) := by
  constructor
  · intro parsed opts searchFn regexGQ exactPhrase file text b _
    cases opts
    rfl
  · intro s t searchFn regexGQ p h
    have hse : s.isEmpty = t.isEmpty := by
      cases s <;> cases t <;> simp_all [lower]
    rcases searchFn with _ | f <;>
      simp [testGlobalString, hse, includesCI, h]

/-- Witness for C8 at a concrete phase evaluation and facet pair. -/
theorem exact_mode_ignores_caseSensitive_witness :
    SearchOptions.mode exactOptsAll = .exact ∧
    gqPhase emptyParsedQuery { exactOptsAll with caseSensitive := true } none none
        (some "q".data) fileReadOk "hello".data =
      gqPhase emptyParsedQuery exactOptsAll none none (some "q".data) fileReadOk
        "hello".data ∧
    lower "AbC".data = lower "aBc".data ∧
    (testGlobalString "AbC".data none none .exact (some "bc".data)).1 =
      (testGlobalString "aBc".data none none .exact (some "bc".data)).1 := by
  refine ⟨rfl, ?_, by decide, ?_⟩
  · exact exact_mode_ignores_caseSensitive.1 emptyParsedQuery exactOptsAll none none
      (some "q".data) fileReadOk "hello".data true rfl
  · exact exact_mode_ignores_caseSensitive.2 "AbC".data "aBc".data none none "bc".data
      (by decide)

/-! ## C1: OR across Global Query facets -/

/-- Name/path-style facet hit: the facet string tested by `testGlobalString`. -/
def gqStringHit (s : Str) (searchFn : Option (Str → Bool)) (regex : Option JsRegex)
    (mode : SearchMode) (exactPhrase : Option Str) : Bool :=
  (testGlobalString s searchFn regex mode exactPhrase).1

/-- Frontmatter facet hit: some key or stringified value hits. -/
def gqFmHit (cache : Option FileCache) (searchFn : Option (Str → Bool))
    (regex : Option JsRegex) (mode : SearchMode) (exactPhrase : Option Str) : Bool :=
  match cacheFrontmatter cache with
  | some fm => (fmStrings fm).any fun s => gqStringHit s searchFn regex mode exactPhrase
  | none => false

/-- Tags facet hit: some tag of the file hits. -/
def gqTagsHit (file : TFileM) (searchFn : Option (Str → Bool)) (regex : Option JsRegex)
    (mode : SearchMode) (exactPhrase : Option Str) : Bool :=
  (getTagsForFile file).any fun s => gqStringHit s searchFn regex mode exactPhrase

/-- Headings facet hit: some (non-empty) heading text hits. -/
def gqHeadingsHit (cache : Option FileCache) (searchFn : Option (Str → Bool))
    (regex : Option JsRegex) (mode : SearchMode) (exactPhrase : Option Str) : Bool :=
  (headingTexts cache).any fun s => gqStringHit s searchFn regex mode exactPhrase

/-- A `testGlobalString` hit always carries a positive count. -/
theorem testGlobalString_hit_iff_pos (s : Str) (searchFn : Option (Str → Bool))
    (regex : Option JsRegex) (mode : SearchMode) (exactPhrase : Option Str) :
    (testGlobalString s searchFn regex mode exactPhrase).1 = true ↔
      0 < (testGlobalString s searchFn regex mode exactPhrase).2 := by
  unfold testGlobalString
  by_cases hs : s.isEmpty = true
  · simp [hs]
  · rw [if_neg hs]
    cases mode <;> rcases searchFn with _ | f <;> rcases regex with _ | rx <;>
        rcases exactPhrase with _ | p <;>
      (repeat' split) <;> simp_all
    all_goals (split <;> simp_all)

/-- The `localCount` accumulated over facet strings is positive exactly when
some string hits. -/
theorem gqLocalCount_cons (s : Str) (rest : List Str) (searchFn : Option (Str → Bool))
    (regex : Option JsRegex) (mode : SearchMode) (exactPhrase : Option Str) :
    gqLocalCount (s :: rest) searchFn regex mode exactPhrase =
      (if (testGlobalString s searchFn regex mode exactPhrase).1 then
        (testGlobalString s searchFn regex mode exactPhrase).2 else 0) +
      gqLocalCount rest searchFn regex mode exactPhrase := by
  simp [gqLocalCount]

/-- The `localCount` accumulated over facet strings is positive exactly when
some string hits. -/
theorem gqLocalCount_pos_iff_any (strings : List Str) (searchFn : Option (Str → Bool))
    (regex : Option JsRegex) (mode : SearchMode) (exactPhrase : Option Str) :
    (0 < gqLocalCount strings searchFn regex mode exactPhrase) ↔
      (strings.any fun s => gqStringHit s searchFn regex mode exactPhrase) = true := by
  induction strings with
  | nil => simp [gqLocalCount]
  | cons s rest ih =>
    simp only [gqStringHit] at ih
    rw [gqLocalCount_cons]
    constructor
    · intro h
      simp only [List.any_cons, Bool.or_eq_true, gqStringHit]
      by_cases hs : (testGlobalString s searchFn regex mode exactPhrase).1 = true
      · exact Or.inl hs
      · right
        rw [← ih]
        rw [if_neg hs] at h
        omega
    · intro h
      simp only [List.any_cons, Bool.or_eq_true, gqStringHit] at h
      rcases h with hs | hr
      · have hpos := (testGlobalString_hit_iff_pos s searchFn regex mode exactPhrase).1 hs
        rw [if_pos hs]
        omega
      · have := ih.2 hr
        omega

/-- The hit flag after one facet step: previous flag OR this facet's
condition. -/
theorem gqStep_fst (st : Bool × GqBk × Nat) (cond : Bool) (upd : GqBk → GqBk)
    (cnt : Nat) : (gqStep st cond upd cnt).1 = (st.1 || cond) := by
  cases cond <;> simp [gqStep]

/-- The frontmatter facet condition (presence of the map and a positive
local count) equals the `gqFmHit` predicate. -/
theorem fm_cond_eq (tfq : Bool) (cache : Option FileCache)
    (searchFn : Option (Str → Bool)) (regex : Option JsRegex) (mode : SearchMode)
    (exactPhrase : Option Str) :
    (tfq && (cacheFrontmatter cache).isSome &&
      decide (0 < gqLocalCount (fmStrings ((cacheFrontmatter cache).getD []))
        searchFn regex mode exactPhrase)) =
      (tfq && gqFmHit cache searchFn regex mode exactPhrase) := by
  rcases h : cacheFrontmatter cache with _ | fm
  · simp [gqFmHit, h]
  · simp only [gqFmHit, h, Option.isSome_some, Bool.and_true, Option.getD_some]
    rcases ha : (fmStrings fm).any fun s => gqStringHit s searchFn regex mode exactPhrase
    · have h0 : ¬ 0 < gqLocalCount (fmStrings fm) searchFn regex mode exactPhrase := by
        rw [gqLocalCount_pos_iff_any]
        simp [ha]
      simp [decide_eq_false h0]
    · have h1 : 0 < gqLocalCount (fmStrings fm) searchFn regex mode exactPhrase :=
        (gqLocalCount_pos_iff_any _ _ _ _ _).2 ha
      simp [decide_eq_true h1]

/-- C1: with a non-empty global query, the free-text phase accepts a document
if and only if at least one enabled facet among body, name, path,
frontmatter, tags and headings yields a hit under the active mode (OR across
facets); in particular, with only the name facet enabled a document whose
name hits is accepted regardless of its body, and with no facet enabled no
document is ever accepted by the phase. -/
theorem gqPhase_or_facets (parsed : ParsedQuery) (searchFn : Option (Str → Bool))
    (regexGQ : Option JsRegex) (exactPhrase : Option Str) (file : TFileM) (text : Str)
    (hq : parsed.globalQuery.isEmpty = false) :
    (∀ opts : SearchOptions,
      ((gqPhase parsed opts searchFn regexGQ exactPhrase file text).1 = true ↔
        ((opts.globalQueryTargets.body = true ∧
            gqBodyHit opts.mode searchFn regexGQ exactPhrase text = true) ∨
         (opts.globalQueryTargets.name = true ∧
            gqStringHit file.name searchFn regexGQ opts.mode exactPhrase = true) ∨
         (opts.globalQueryTargets.path = true ∧
            gqStringHit file.path searchFn regexGQ opts.mode exactPhrase = true) ∨
         (opts.globalQueryTargets.frontmatter = true ∧
            gqFmHit file.cache searchFn regexGQ opts.mode exactPhrase = true) ∨
         (opts.globalQueryTargets.tags = true ∧
            gqTagsHit file searchFn regexGQ opts.mode exactPhrase = true) ∨
         (opts.globalQueryTargets.headings = true ∧
            gqHeadingsHit file.cache searchFn regexGQ opts.mode exactPhrase = true)))) ∧
    (∀ opts : SearchOptions,
      opts.globalQueryTargets = ⟨false, true, false, false, false, false⟩ →
      gqStringHit file.name searchFn regexGQ opts.mode exactPhrase = true →
      (gqPhase parsed opts searchFn regexGQ exactPhrase file text).1 = true) ∧
    (∀ opts : SearchOptions,
      opts.globalQueryTargets = ⟨false, false, false, false, false, false⟩ →
      (gqPhase parsed opts searchFn regexGQ exactPhrase file text).1 = false) := by
  have main : ∀ opts : SearchOptions,
      ((gqPhase parsed opts searchFn regexGQ exactPhrase file text).1 = true ↔
        ((opts.globalQueryTargets.body = true ∧
            gqBodyHit opts.mode searchFn regexGQ exactPhrase text = true) ∨
         (opts.globalQueryTargets.name = true ∧
            gqStringHit file.name searchFn regexGQ opts.mode exactPhrase = true) ∨
         (opts.globalQueryTargets.path = true ∧
            gqStringHit file.path searchFn regexGQ opts.mode exactPhrase = true) ∨
         (opts.globalQueryTargets.frontmatter = true ∧
            gqFmHit file.cache searchFn regexGQ opts.mode exactPhrase = true) ∨
         (opts.globalQueryTargets.tags = true ∧
            gqTagsHit file searchFn regexGQ opts.mode exactPhrase = true) ∨
         (opts.globalQueryTargets.headings = true ∧
            gqHeadingsHit file.cache searchFn regexGQ opts.mode exactPhrase = true))) := by
    intro opts
    unfold gqPhase
    simp only [gqStep_fst, fm_cond_eq, hq, Bool.not_false, Bool.true_and]
    have hT : decide (0 < gqLocalCount (getTagsForFile file) searchFn regexGQ
        opts.mode exactPhrase) = gqTagsHit file searchFn regexGQ opts.mode exactPhrase := by
      rcases ha : gqTagsHit file searchFn regexGQ opts.mode exactPhrase
      · simp [(gqLocalCount_pos_iff_any _ _ _ _ _).not.2 (by simpa [gqTagsHit] using ha)]
      · simp [(gqLocalCount_pos_iff_any _ _ _ _ _).2 (by simpa [gqTagsHit] using ha)]
    have hH : decide (0 < gqLocalCount (headingTexts file.cache) searchFn regexGQ
        opts.mode exactPhrase) =
        gqHeadingsHit file.cache searchFn regexGQ opts.mode exactPhrase := by
      rcases ha : gqHeadingsHit file.cache searchFn regexGQ opts.mode exactPhrase
      · simp [(gqLocalCount_pos_iff_any _ _ _ _ _).not.2 (by simpa [gqHeadingsHit] using ha)]
      · simp [(gqLocalCount_pos_iff_any _ _ _ _ _).2 (by simpa [gqHeadingsHit] using ha)]
    rw [hT, hH]
    simp [gqStringHit, Bool.or_eq_true, Bool.and_eq_true, or_assoc]
  refine ⟨main, ?_, ?_⟩
  · intro opts ht hn
    rw [main opts]
    rw [ht]
    exact Or.inr (Or.inl ⟨rfl, hn⟩)
  · intro opts ht
    rcases hb : (gqPhase parsed opts searchFn regexGQ exactPhrase file text).1
    · rfl
    · exfalso
      have := (main opts).1 hb
      rw [ht] at this
      simp at this

/-- Query whose global free-text query is `"alpha"`. -/
def qAlpha : ParsedQuery := ⟨"alpha".data, [], [], [], [], [], [], []⟩

/-- A file whose name contains `"alpha"` but whose body does not. -/
def fileAlphaName : TFileM :=
  ⟨"alpha-notes.md".data, "alpha-notes.md".data, ⟨1, 2⟩, some ⟨none, [], []⟩,
   .ok "nothing here".data⟩

/-- Exact-mode options targeting only the name facet. -/
def optsNameOnly : SearchOptions :=
  ⟨.exact, false, .pathAsc, none, ⟨false, true, false, false, false, false⟩⟩

/-- Exact-mode options with no facet enabled. -/
def optsNoFacets : SearchOptions :=
  ⟨.exact, false, .pathAsc, none, ⟨false, false, false, false, false, false⟩⟩

/-- Witness for C1: with query `"alpha"` and only the name facet enabled, the
phase accepts `alpha-notes.md` although its body lacks the query; with no
facet enabled it rejects. -/
theorem gqPhase_or_facets_witness :
    "alpha".data.isEmpty = false ∧
    gqStringHit "alpha-notes.md".data none none .exact (some "alpha".data) = true ∧
    includesCI "nothing here".data "alpha".data = false ∧
    (gqPhase qAlpha optsNameOnly none none (some "alpha".data) fileAlphaName
      "nothing here".data).1 = true ∧
    (gqPhase qAlpha optsNoFacets none none (some "alpha".data) fileAlphaName
      "nothing here".data).1 = false := by
  refine ⟨by decide, by decide, by decide, ?_, ?_⟩
  · exact (gqPhase_or_facets qAlpha none none (some "alpha".data) fileAlphaName
      "nothing here".data (by decide)).2.1 optsNameOnly rfl (by decide)
  · exact (gqPhase_or_facets qAlpha none none (some "alpha".data) fileAlphaName
      "nothing here".data (by decide)).2.2 optsNoFacets rfl

/-! ## C4: the Global Query regex setup -/

theorem char_toNat_ofNat {n : Nat} (h : n < 0xd800) : (Char.ofNat n).toNat = n := by
  rw [Char.ofNat, dif_pos (Or.inl h)]
  simp [Char.ofNatAux, Char.toNat, UInt32.toNat, BitVec.toNat_ofNatLt]

theorem toLower_toNat (c : Char) :
    c.toLower.toNat = if c.toNat ≥ 65 ∧ c.toNat ≤ 90 then c.toNat + 32 else c.toNat := by
  unfold Char.toLower
  by_cases h : c.toNat ≥ 65 ∧ c.toNat ≤ 90
  · rw [if_pos h, if_pos h]
    exact char_toNat_ofNat (by omega)
  · rw [if_neg h, if_neg h]

theorem toLower_idem (c : Char) : c.toLower.toLower = c.toLower := by
  unfold Char.toLower
  by_cases h : c.toNat ≥ 65 ∧ c.toNat ≤ 90
  · rw [if_pos h]
    have ht : (Char.ofNat (c.toNat + 32)).toNat = c.toNat + 32 :=
      char_toNat_ofNat (by omega)
    rw [if_neg (by omega)]
  · rw [if_neg h, if_neg h]

theorem isLineTermCh_iff (c : Char) :
    isLineTermCh c = true ↔
      (c.toNat = 10 ∨ c.toNat = 13 ∨ c.toNat = 0x2028 ∨ c.toNat = 0x2029) := by
  simp only [isLineTermCh, Bool.or_eq_true, beq_iff_eq]
  tauto

theorem isLineTermCh_toLower (c : Char) : isLineTermCh c.toLower = isLineTermCh c := by
  have ht := toLower_toNat c
  rw [Bool.eq_iff_iff, isLineTermCh_iff, isLineTermCh_iff, ht]
  by_cases h : c.toNat ≥ 65 ∧ c.toNat ≤ 90
  · rw [if_pos h]
    omega
  · rw [if_neg h]

theorem matchAtom_ic_toLower (a : RAtom) (c : Char) :
    matchAtom true a c.toLower = matchAtom true a c := by
  cases a with
  | dot => simp [matchAtom, isLineTermCh_toLower]
  | lit l => simp [matchAtom, toLower_idem]

/-- An ignore-case match cannot distinguish a subject from its lower-cased
form. -/
theorem matchSeq_ic_lower (fuel : Nat) (ps : List RPiece) (s : Str) (b : Bool) :
    matchSeq true fuel ps (lower s) b = matchSeq true fuel ps s b := by
  induction fuel generalizing ps s b with
  | zero => rfl
  | succ n ih =>
    cases ps with
    | nil => rfl
    | cons p ps =>
      cases p with
      | simple sp =>
        cases sp with
        | bol => simp only [matchSeq, ih]
        | eol =>
          cases s with
          | nil => rfl
          | cons c t =>
            have e : lower (c :: t) = c.toLower :: lower t := rfl
            rw [e]
            simp only [matchSeq, List.isEmpty]
            rw [← e]
            simp only [ih]
        | one a =>
          cases s with
          | nil => rfl
          | cons c t =>
            have e : lower (c :: t) = c.toLower :: lower t := rfl
            rw [e]
            simp only [matchSeq]
            simp only [matchAtom_ic_toLower, ih]
        | quest a =>
          cases s with
          | nil => rfl
          | cons c t =>
            have e : lower (c :: t) = c.toLower :: lower t := rfl
            rw [e]
            simp only [matchSeq]
            rw [← e]
            simp only [matchAtom_ic_toLower, ih]
        | star a =>
          cases s with
          | nil => rfl
          | cons c t =>
            have e : lower (c :: t) = c.toLower :: lower t := rfl
            rw [e]
            simp only [matchSeq]
            rw [← e]
            simp only [matchAtom_ic_toLower, ih]
        | plus a =>
          cases s with
          | nil => rfl
          | cons c t =>
            have e : lower (c :: t) = c.toLower :: lower t := rfl
            rw [e]
            simp only [matchSeq]
            simp only [matchAtom_ic_toLower, ih]
      | look inner => simp only [matchSeq, ih]

theorem matchHere_ic_lower (ps : List RPiece) (s : Str) (b : Bool) :
    matchHere true ps (lower s) b = matchHere true ps s b := by
  unfold matchHere
  rw [show (lower s).length = s.length from by simp [lower]]
  exact matchSeq_ic_lower _ _ _ _

theorem searchAt_ic_lower (ps : List RPiece) (s : Str) (b : Bool) :
    searchAt true ps (lower s) b = searchAt true ps s b := by
  induction s generalizing b with
  | nil => rfl
  | cons c rest ih =>
    have h1 : lower (c :: rest) = c.toLower :: lower rest := rfl
    rw [h1]
    simp only [searchAt]
    rw [← h1, matchHere_ic_lower, ih]

/-- An ignore-case regex is case-insensitive: lowering the subject does not
change the test. -/
theorem rtest_ic_lower (rx : JsRegex) (s : Str) (hic : rx.ignoreCase = true) :
    rtest rx (lower s) = rtest rx s := by
  unfold rtest
  rw [hic]
  exact searchAt_ic_lower _ _ _

/-- Inversion of a successful `new RegExp`. -/
theorem mkJsRegex_inv {body flags : Str} {rx : JsRegex}
    (h : mkJsRegex body flags = some rx) :
    rx.source = body ∧ rx.flags = flags ∧ validFlags flags = true ∧
    parseBody body = some rx.ast ∧ rx.ignoreCase = flags.contains 'i' := by
  unfold mkJsRegex at h
  by_cases hv : validFlags flags = true
  · rw [if_pos hv] at h
    rcases hp : parseBody body with _ | ast
    · rw [hp] at h
      exact absurd h (by simp)
    · rw [hp] at h
      have := Option.some.inj h
      subst this
      exact ⟨rfl, rfl, hv, rfl, rfl⟩
  · rw [if_neg hv] at h
    exact absurd h (by simp)

theorem nodupB_filter (p : Char → Bool) (l : Str) (h : nodupB l = true) :
    nodupB (l.filter p) = true := by
  induction l with
  | nil => rfl
  | cons c cs ih =>
    simp only [nodupB, Bool.and_eq_true, Bool.not_eq_true'] at h
    by_cases hp : p c = true
    · rw [List.filter_cons_of_pos hp]
      simp only [nodupB, Bool.and_eq_true, Bool.not_eq_true']
      refine ⟨?_, ih h.2⟩
      rcases hc : (cs.filter p).contains c
      · rfl
      · exfalso
        have hm : c ∈ cs.filter p := by
          simpa using hc
        have : c ∈ cs := (List.mem_filter.1 hm).1
        have : cs.contains c = true := by simpa using this
        rw [h.1] at this
        exact Bool.noConfusion this
    · rw [List.filter_cons_of_neg hp]
      exact ih h.2

theorem contains_filter_imp (p : Char → Bool) (l : Str) (c : Char)
    (h : (l.filter p).contains c = true) : l.contains c = true := by
  have : c ∈ l.filter p := by simpa using h
  simpa using (List.mem_filter.1 this).1

/-- Stripping `g` from a valid flag string keeps it valid. -/
theorem validFlags_filter_g (flags : Str) (h : validFlags flags = true) :
    validFlags (flags.filter fun c => c ≠ 'g') = true := by
  unfold validFlags at h ⊢
  simp only [Bool.and_eq_true, Bool.not_eq_true', Bool.and_eq_false_iff] at h ⊢
  obtain ⟨⟨hall, hnd⟩, huv⟩ := h
  refine ⟨⟨?_, nodupB_filter _ _ hnd⟩, ?_⟩
  · rw [List.all_eq_true] at hall ⊢
    intro x hx
    exact hall x (List.mem_of_mem_filter hx)
  · rcases huv with hu | hv
    · left
      rcases hc : (flags.filter fun c => c ≠ 'g').contains 'u'
      · rfl
      · rw [contains_filter_imp _ _ _ hc] at hu
        exact hu
    · right
      rcases hc : (flags.filter fun c => c ≠ 'g').contains 'v'
      · rfl
      · rw [contains_filter_imp _ _ _ hc] at hv
        exact hv

/-- Inversion of a successful explicit-literal parse. -/
theorem tryParseExplicitRegex_inv {pat : Str} {rx : JsRegex}
    (h : tryParseExplicitRegex pat = some rx) :
    validFlags rx.flags = true ∧ parseBody rx.source = some rx.ast ∧
    rx.ignoreCase = rx.flags.contains 'i' := by
  unfold tryParseExplicitRegex at h
  split at h
  · split at h
    · exact absurd h (by simp)
    · split at h
      · split at h
        · exact absurd h (by simp)
        · obtain ⟨hs, hf, hv, hp, hic⟩ := mkJsRegex_inv h
          refine ⟨?_, ?_, ?_⟩ <;> simp [hs, hf, hv, hp, hic]
      · exact absurd h (by simp)
  · exact absurd h (by simp)

/-- C4: in regex mode the Global Query search regex is the explicit
`/.../flags` literal when one parses (with only the `g` flag stripped, so its
test behaviour is the literal's); otherwise the whole query string is
compiled with the `i` flag, and that default regex is case-insensitive: it
cannot distinguish a subject from its lower-cased form. -/
theorem gqRegexSetup_spec (gq : Str) (hq : gq.isEmpty = false) :
    (∀ explicit, tryParseExplicitRegex gq = some explicit →
      ∃ rx, gqRegexSetup gq .regex = .ok (some rx) ∧
        rx.source = explicit.source ∧
        rx.flags = explicit.flags.filter (fun c => c ≠ 'g') ∧
        ∀ s, rtest rx s = rtest explicit s) ∧
    (tryParseExplicitRegex gq = none →
      ∀ rx, gqRegexSetup gq .regex = .ok (some rx) →
        rx.source = gq ∧ rx.flags = ['i'] ∧ rx.ignoreCase = true ∧
        ∀ s, rtest rx (lower s) = rtest rx s) := by
  constructor
  · intro explicit hex
    unfold gqRegexSetup
    rw [if_pos (by simp [hq])]
    simp only [hex]
    obtain ⟨hv, hp, hic⟩ := tryParseExplicitRegex_inv hex
    have hv' := validFlags_filter_g _ hv
    have hmk : mkJsRegex explicit.source (explicit.flags.filter fun c => c ≠ 'g') =
        some ⟨explicit.source, explicit.flags.filter fun c => c ≠ 'g', explicit.ast,
              (explicit.flags.filter fun c => c ≠ 'g').contains 'i'⟩ := by
      unfold mkJsRegex
      rw [if_pos hv', hp]
    rw [hmk]
    refine ⟨_, rfl, rfl, rfl, ?_⟩
    intro s
    unfold rtest
    have hci : (explicit.flags.filter fun c => c ≠ 'g').contains 'i' =
        explicit.flags.contains 'i' := by
      rw [Bool.eq_iff_iff]
      simp [List.mem_filter]
    rw [show (⟨explicit.source, explicit.flags.filter fun c => c ≠ 'g', explicit.ast,
          (explicit.flags.filter fun c => c ≠ 'g').contains 'i'⟩ : JsRegex).ignoreCase =
        (explicit.flags.filter fun c => c ≠ 'g').contains 'i' from rfl]
    rw [hci, ← hic]
  · intro hnone rx hok
    unfold gqRegexSetup at hok
    rw [if_pos (by simp [hq])] at hok
    simp only [hnone] at hok
    rcases hmk : mkJsRegex gq ['i'] with _ | rx'
    · rw [hmk] at hok
      exact absurd hok (by simp)
    · rw [hmk] at hok
      have hr : rx' = rx := Option.some.inj (Except.ok.inj hok)
      subst hr
      obtain ⟨hs, hf, hv, hp, hic⟩ := mkJsRegex_inv hmk
      have hic' : rx'.ignoreCase = true := by
        rw [hic]
        rfl
      exact ⟨hs, hf, hic', fun s => rtest_ic_lower _ _ hic'⟩

/-- Witness for C4: the explicit literal `/AB/g` is taken over (with `g`
stripped, staying case-sensitive), and the bare query `"ab"` compiles with
the `i` flag, matching case-insensitively. -/
theorem gqRegexSetup_spec_witness :
    (∃ explicit, tryParseExplicitRegex "/AB/g".data = some explicit ∧
      ∃ rx, gqRegexSetup "/AB/g".data .regex = .ok (some rx) ∧
        rx.source = explicit.source ∧
        rx.flags = explicit.flags.filter (fun c => c ≠ 'g') ∧
        rtest rx "xABy".data = rtest explicit "xABy".data) ∧
    (∀ rx, gqRegexSetup "ab".data .regex = .ok (some rx) →
      rx.source = "ab".data ∧ rx.flags = ['i'] ∧ rx.ignoreCase = true ∧
      rtest rx (lower "AB".data) = rtest rx "AB".data) := by
  constructor
  · refine ⟨⟨"AB".data, ['g'],
      [.simple (.one (.lit 'A')), .simple (.one (.lit 'B'))], false⟩, by decide, ?_⟩
    obtain ⟨rx, h1, h2, h3, h4⟩ :=
      (gqRegexSetup_spec "/AB/g".data (by decide)).1
        ⟨"AB".data, ['g'], [.simple (.one (.lit 'A')), .simple (.one (.lit 'B'))], false⟩
        (by decide)
    exact ⟨rx, h1, h2, h3, h4 _⟩
  · intro rx h
    obtain ⟨h1, h2, h3, h4⟩ :=
      (gqRegexSetup_spec "ab".data (by decide)).2 (by decide) rx h
    exact ⟨h1, h2, h3, h4 _⟩

/-! ## Merge-map lemmas (for C9 and C10) -/

theorem map_self_of_eq {α : Type} {f : α → α} {l : List α} (h : ∀ x ∈ l, f x = x) :
    l.map f = l := by
  induction l with
  | nil => rfl
  | cons x xs ih =>
    simp only [List.map_cons]
    rw [h x (by simp), ih (fun y hy => h y (by simp [hy]))]

theorem mem_addUnique {acc : List Str} {s x : Str} :
    x ∈ addUnique acc s ↔ (x ∈ acc ∨ x = s) := by
  unfold addUnique
  by_cases h : acc.contains s = true
  · rw [if_pos h]
    have hs : s ∈ acc := by simpa using h
    constructor
    · exact Or.inl
    · rintro (h1 | rfl)
      · exact h1
      · exact hs
  · rw [if_neg h]
    simp

theorem mem_addAllUnique {acc l : List Str} {x : Str} :
    x ∈ addAllUnique acc l ↔ (x ∈ acc ∨ x ∈ l) := by
  induction l generalizing acc with
  | nil => simp [addAllUnique]
  | cons s ss ih =>
    show x ∈ addAllUnique (addUnique acc s) ss ↔ _
    rw [ih, mem_addUnique]
    simp only [List.mem_cons]
    tauto

theorem mem_dedupOrdered {l : List Str} {x : Str} : x ∈ dedupOrdered l ↔ x ∈ l := by
  unfold dedupOrdered
  rw [mem_addAllUnique]
  simp

theorem nodup_addUnique {acc : List Str} {s : Str} (h : acc.Nodup) :
    (addUnique acc s).Nodup := by
  unfold addUnique
  by_cases hc : acc.contains s = true
  · rw [if_pos hc]
    exact h
  · rw [if_neg hc]
    have hs : s ∉ acc := by
      intro hmem
      exact hc (by simpa using hmem)
    refine List.Nodup.append h (List.nodup_singleton s) ?_
    intro a ha hb
    rw [List.mem_singleton] at hb
    subst hb
    exact hs ha

theorem nodup_addAllUnique {acc l : List Str} (h : acc.Nodup) :
    (addAllUnique acc l).Nodup := by
  induction l generalizing acc with
  | nil => exact h
  | cons s ss ih => exact ih (nodup_addUnique h)

theorem nodup_dedupOrdered (l : List Str) : (dedupOrdered l).Nodup :=
  nodup_addAllUnique List.nodup_nil

theorem addAllUnique_absorbed {acc l : List Str} (h : ∀ s ∈ l, s ∈ acc) :
    addAllUnique acc l = acc := by
  induction l with
  | nil => rfl
  | cons s ss ih =>
    show addAllUnique (addUnique acc s) ss = acc
    have he : addUnique acc s = acc := by
      unfold addUnique
      rw [if_pos (by simpa using h s (by simp))]
    rw [he]
    exact ih (fun x hx => h x (by simp [hx]))

theorem lookup_isSome_iff (m : List (Int × MergeEntry)) (k : Int) :
    (m.lookup k).isSome = true ↔ k ∈ m.map Prod.fst := by
  induction m with
  | nil => simp [List.lookup]
  | cons kv m ih =>
    rcases kv with ⟨a, v⟩
    simp only [List.lookup, List.map_cons, List.mem_cons]
    by_cases h : k = a
    · subst h
      simp
    · rw [show (k == a) = false from by simpa using h]
      simp only [ih]
      tauto

theorem lookup_of_mem_nodup {m : List (Int × MergeEntry)}
    (hn : (m.map Prod.fst).Nodup) {kv : Int × MergeEntry} (hm : kv ∈ m) :
    m.lookup kv.1 = some kv.2 := by
  induction m with
  | nil => exact absurd hm (by simp)
  | cons hd tl ih =>
    rcases hd with ⟨a, v⟩
    simp only [List.map_cons, List.nodup_cons] at hn
    rcases List.mem_cons.1 hm with rfl | htl
    · simp [List.lookup]
    · have hka : kv.1 ≠ a := by
        intro h
        exact hn.1 (h ▸ (by exact List.mem_map_of_mem Prod.fst htl))
      simp only [List.lookup]
      rw [show (kv.1 == a) = false from by simpa using hka]
      exact ih hn.2 htl

theorem pushExcerpt_keys (m : List (Int × MergeEntry)) (e : ExcerptM) :
    (pushExcerpt m e).map Prod.fst =
      if (m.lookup e.line).isSome then m.map Prod.fst
      else m.map Prod.fst ++ [e.line] := by
  unfold pushExcerpt
  by_cases h : (m.lookup e.line).isSome = true
  · rw [if_pos h, if_pos h]
    rw [List.map_map]
    refine List.map_congr_left ?_
    intro kv _
    by_cases hk : kv.1 = e.line
    · simp [Function.comp, hk]
    · simp [Function.comp, hk]
  · rw [if_neg h, if_neg h]
    simp

theorem mem_keys_pushExcerpt {m : List (Int × MergeEntry)} {e : ExcerptM} {k : Int} :
    k ∈ (pushExcerpt m e).map Prod.fst ↔ (k ∈ m.map Prod.fst ∨ k = e.line) := by
  rw [pushExcerpt_keys]
  by_cases h : (m.lookup e.line).isSome = true
  · rw [if_pos h]
    have he : e.line ∈ m.map Prod.fst := (lookup_isSome_iff _ _).1 h
    constructor
    · exact Or.inl
    · rintro (h1 | rfl)
      · exact h1
      · exact he
  · rw [if_neg h]
    simp

theorem keys_nodup_pushExcerpt {m : List (Int × MergeEntry)} {e : ExcerptM}
    (h : (m.map Prod.fst).Nodup) : ((pushExcerpt m e).map Prod.fst).Nodup := by
  rw [pushExcerpt_keys]
  by_cases hs : (m.lookup e.line).isSome = true
  · rw [if_pos hs]
    exact h
  · rw [if_neg hs]
    have hne : e.line ∉ m.map Prod.fst := fun hm => hs ((lookup_isSome_iff _ _).2 hm)
    refine List.Nodup.append h (List.nodup_singleton _) ?_
    intro a ha hb
    rw [List.mem_singleton] at hb
    subst hb
    exact hne ha

theorem keys_nodup_pushList (l : List ExcerptM) (acc : List (Int × MergeEntry))
    (h : (acc.map Prod.fst).Nodup) :
    ((l.foldl pushExcerpt acc).map Prod.fst).Nodup := by
  induction l generalizing acc with
  | nil => exact h
  | cons e es ih => exact ih _ (keys_nodup_pushExcerpt h)

theorem mem_keys_pushList {l : List ExcerptM} {acc : List (Int × MergeEntry)} {k : Int} :
    k ∈ (l.foldl pushExcerpt acc).map Prod.fst ↔
      (k ∈ acc.map Prod.fst ∨ k ∈ l.map (·.line)) := by
  induction l generalizing acc with
  | nil => simp
  | cons e es ih =>
    show k ∈ (es.foldl pushExcerpt (pushExcerpt acc e)).map Prod.fst ↔ _
    rw [ih, mem_keys_pushExcerpt]
    simp only [List.map_cons, List.mem_cons]
    tauto

/-- Updating the entries at one key leaves lookups of other keys unchanged. -/
theorem lookup_map_upd {β : Type} (g : Int × β → β) (t : Int)
    (tl : List (Int × β)) (k : Int) (hk : k ≠ t) :
    (tl.map fun kv => if kv.1 = t then (kv.1, g kv) else kv).lookup k = tl.lookup k := by
  induction tl with
  | nil => rfl
  | cons hd tl ih =>
    rcases hd with ⟨b, w⟩
    simp only [List.map_cons]
    by_cases hb : b = t
    · rw [if_pos (show (b, w).1 = t from hb)]
      simp only [List.lookup]
      rw [show (k == b) = false from by
        simpa using (show k ≠ b from fun h => hk (h.trans hb))]
      exact ih
    · rw [if_neg (show ¬(b, w).1 = t from hb)]
      simp only [List.lookup]
      by_cases hkb : k = b
      · subst hkb
        rw [show (k == k) = true from by simp]
      · rw [show (k == b) = false from by simpa using hkb]
        exact ih

/-- The lookup at the updated key after an in-place update. -/
theorem lookup_map_upd_self {β : Type} (g : Int × β → β) (t : Int)
    (tl : List (Int × β)) :
    (tl.map fun kv => if kv.1 = t then (kv.1, g kv) else kv).lookup t =
      (tl.lookup t).map fun w => g (t, w) := by
  induction tl with
  | nil => rfl
  | cons hd tl ih =>
    rcases hd with ⟨b, w⟩
    simp only [List.map_cons]
    by_cases hb : b = t
    · subst hb
      rw [if_pos (show (b, w).1 = b from rfl)]
      simp only [List.lookup]
      rw [show (b == b) = true from by simp]
      rfl
    · rw [if_neg (show ¬(b, w).1 = t from hb)]
      simp only [List.lookup]
      rw [show (t == b) = false from by simpa using fun h => hb (h.symm)]
      exact ih

/-- The lookup after appending a fresh entry. -/
theorem lookup_append_single {β : Type} (m : List (Int × β)) (t : Int) (v : β)
    (k : Int) :
    (m ++ [(t, v)]).lookup k =
      (match m.lookup k with
       | some w => some w
       | none => if k = t then some v else none) := by
  induction m with
  | nil =>
    simp only [List.nil_append, List.lookup]
    by_cases hk : k = t
    · subst hk
      rw [show (k == k) = true from by simp, if_pos rfl]
    · rw [show (k == t) = false from by simpa using hk, if_neg hk]
  | cons hd tl ih =>
    rcases hd with ⟨b, w⟩
    simp only [List.cons_append, List.lookup]
    by_cases hkb : k = b
    · subst hkb
      rw [show (k == k) = true from by simp]
    · rw [show (k == b) = false from by simpa using hkb]
      exact ih

/-- The lookup of the merge map after one push. -/
theorem lookup_pushExcerpt (m : List (Int × MergeEntry)) (e : ExcerptM) (k : Int) :
    (pushExcerpt m e).lookup k =
      (if k = e.line then
        (match m.lookup e.line with
         | some ts =>
           some ((if ts.1.isEmpty && !e.text.isEmpty then e.text else ts.1),
                 addAllUnique ts.2 e.sources)
         | none => some (e.text, dedupOrdered e.sources))
      else m.lookup k) := by
  by_cases hp : (m.lookup e.line).isSome = true
  · unfold pushExcerpt
    rw [if_pos hp]
    by_cases hk : k = e.line
    · subst hk
      rw [if_pos rfl]
      rw [lookup_map_upd_self
        (fun kv => ((if kv.2.1.isEmpty && !e.text.isEmpty then e.text else kv.2.1),
          addAllUnique kv.2.2 e.sources)) e.line m]
      rcases hs : m.lookup e.line with _ | ts
      · rw [hs] at hp
        exact absurd hp (by simp)
      · rfl
    · rw [if_neg hk]
      exact lookup_map_upd
        (fun kv => ((if kv.2.1.isEmpty && !e.text.isEmpty then e.text else kv.2.1),
          addAllUnique kv.2.2 e.sources)) e.line m k hk
  · unfold pushExcerpt
    rw [if_neg hp]
    rw [lookup_append_single]
    have hnone : m.lookup e.line = none := by
      rcases hs : m.lookup e.line with _ | ts
      · rfl
      · rw [hs] at hp
        exact absurd rfl hp
    by_cases hk : k = e.line
    · subst hk
      rw [if_pos rfl, hnone]
      simp [hnone]
    · rcases hs : m.lookup k with _ | w
      · simp [hk]
      · simp [hk]

/-- The merge map already accounts for excerpt `e`: the entry at its line has
the sources and a compatible text. -/
def AbsorbedBy (m : List (Int × MergeEntry)) (e : ExcerptM) : Prop :=
  ∃ t srcs, m.lookup e.line = some (t, srcs) ∧ (t = [] → e.text = []) ∧
    ∀ s ∈ e.sources, s ∈ srcs

/-- Pushing an absorbed excerpt leaves the (key-unique) merge map unchanged. -/
theorem pushExcerpt_absorbed {m : List (Int × MergeEntry)} {e : ExcerptM}
    (hn : (m.map Prod.fst).Nodup) (ha : AbsorbedBy m e) : pushExcerpt m e = m := by
  obtain ⟨t, srcs, hl, ht, hs⟩ := ha
  unfold pushExcerpt
  rw [if_pos (by rw [hl]; rfl)]
  apply map_self_of_eq
  intro kv hkv
  by_cases hk : kv.1 = e.line
  · have hlk := lookup_of_mem_nodup hn hkv
    rw [hk, hl] at hlk
    have h2 : kv.2 = (t, srcs) := (Option.some.inj hlk).symm
    rw [if_pos hk]
    have htext : (kv.2.1.isEmpty && !e.text.isEmpty) = false := by
      by_cases hte : t = []
      · have h0 := ht hte
        rw [h2, hte, h0]
        simp
      · rw [h2]
        have hne : t.isEmpty = false := by
          cases t with
          | nil => exact absurd rfl hte
          | cons c cs => rfl
        simp [hne]
    rw [htext]
    have hsrc : addAllUnique kv.2.2 e.sources = kv.2.2 := by
      rw [h2]
      exact addAllUnique_absorbed (fun s hsm => hs s hsm)
    rw [hsrc]
    simp
  · rw [if_neg hk]

/-- Absorption survives later pushes. -/
theorem absorbed_pushExcerpt {m : List (Int × MergeEntry)} {e e' : ExcerptM}
    (ha : AbsorbedBy m e) : AbsorbedBy (pushExcerpt m e') e := by
  obtain ⟨t, srcs, hl, ht, hs⟩ := ha
  unfold AbsorbedBy
  rw [lookup_pushExcerpt]
  by_cases hk : e.line = e'.line
  · rw [if_pos hk, ← hk, hl]
    refine ⟨(if t.isEmpty && !e'.text.isEmpty then e'.text else t),
            addAllUnique srcs e'.sources, rfl, ?_, ?_⟩
    · intro h0
      by_cases hemp : (t.isEmpty && !e'.text.isEmpty) = true
      · rw [if_pos hemp] at h0
        rw [h0] at hemp
        simp at hemp
      · rw [if_neg hemp] at h0
        exact ht h0
    · intro s hsm
      exact mem_addAllUnique.2 (Or.inl (hs s hsm))
  · rw [if_neg hk]
    exact ⟨t, srcs, hl, ht, hs⟩

/-- The excerpt just pushed is absorbed. -/
theorem absorbed_self (m : List (Int × MergeEntry)) (e : ExcerptM) :
    AbsorbedBy (pushExcerpt m e) e := by
  unfold AbsorbedBy
  rw [lookup_pushExcerpt, if_pos rfl]
  rcases hl : m.lookup e.line with _ | ts
  · refine ⟨e.text, dedupOrdered e.sources, rfl, fun h => h, ?_⟩
    intro s hsm
    exact mem_dedupOrdered.2 hsm
  · refine ⟨_, _, rfl, ?_, ?_⟩
    · intro h0
      by_cases hemp : (ts.1.isEmpty && !e.text.isEmpty) = true
      · rw [if_pos hemp] at h0
        rw [h0] at hemp
        simp at hemp
      · rw [if_neg hemp] at h0
        rw [h0] at hemp
        simp only [List.isEmpty_nil, Bool.true_and, Bool.not_eq_true',
          Bool.not_eq_false] at hemp
        simpa using hemp
    · intro s hsm
      exact mem_addAllUnique.2 (Or.inr hsm)

theorem absorbed_foldl {l : List ExcerptM} {m : List (Int × MergeEntry)} {e : ExcerptM}
    (ha : AbsorbedBy m e) : AbsorbedBy (l.foldl pushExcerpt m) e := by
  induction l generalizing m with
  | nil => exact ha
  | cons y ys ih => exact ih (absorbed_pushExcerpt ha)

theorem foldl_all_absorbed (l : List ExcerptM) (m : List (Int × MergeEntry)) :
    ∀ e ∈ l, AbsorbedBy (l.foldl pushExcerpt m) e := by
  induction l generalizing m with
  | nil => intro e he; exact absurd he (by simp)
  | cons y ys ih =>
    intro e he
    rcases List.mem_cons.1 he with rfl | hys
    · show AbsorbedBy (ys.foldl pushExcerpt (pushExcerpt m e)) e
      exact absorbed_foldl (absorbed_self m e)
    · exact ih (pushExcerpt m y) e hys

theorem foldl_absorbed_eq {l : List ExcerptM} {m : List (Int × MergeEntry)}
    (hn : (m.map Prod.fst).Nodup) (h : ∀ e ∈ l, AbsorbedBy m e) :
    l.foldl pushExcerpt m = m := by
  induction l with
  | nil => rfl
  | cons y ys ih =>
    show ys.foldl pushExcerpt (pushExcerpt m y) = m
    rw [pushExcerpt_absorbed hn (h y (by simp))]
    exact ih (fun e he => h e (by simp [he]))

instance : IsTotal (Int × MergeEntry) (fun a b => a.1 ≤ b.1) :=
  ⟨fun a b => Int.le_total a.1 b.1⟩

instance : IsTrans (Int × MergeEntry) (fun a b => a.1 ≤ b.1) :=
  ⟨fun _ _ _ h1 h2 => le_trans h1 h2⟩

/-- Merging a list with itself builds the same merge map as merging it with
nothing: the second pass is fully absorbed. -/
theorem mergeExcerpts_self_eq (xs : List ExcerptM) (limit : Nat) :
    mergeExcerpts xs xs limit = mergeExcerpts xs [] limit := by
  unfold mergeExcerpts
  rw [List.append_nil, List.foldl_append]
  rw [foldl_absorbed_eq (keys_nodup_pushList xs [] (by simp)) (foldl_all_absorbed xs [])]

/-- Pushing excerpts with fresh, pairwise-distinct lines appends one entry
per excerpt. -/
theorem pushList_fresh (xs : List ExcerptM) (acc : List (Int × MergeEntry))
    (hd : ∀ e ∈ xs, e.line ∉ acc.map Prod.fst) (hnd : (xs.map (·.line)).Nodup) :
    xs.foldl pushExcerpt acc =
      acc ++ xs.map (fun e => (e.line, e.text, dedupOrdered e.sources)) := by
  induction xs generalizing acc with
  | nil => simp
  | cons e es ih =>
    show es.foldl pushExcerpt (pushExcerpt acc e) = _
    have hline : (acc.lookup e.line).isSome = false := by
      rcases h : (acc.lookup e.line).isSome
      · rfl
      · exact absurd ((lookup_isSome_iff _ _).1 h) (hd e (by simp))
    have hpe : pushExcerpt acc e = acc ++ [(e.line, e.text, dedupOrdered e.sources)] := by
      unfold pushExcerpt
      rw [if_neg (by simp [hline])]
    simp only [List.map_cons, List.nodup_cons] at hnd
    rw [hpe, ih]
    · simp
    · intro e' he'
      simp only [List.map_append, List.mem_append, List.map_cons, List.map_nil,
        List.mem_singleton]
      rintro (h1 | h2)
      · exact hd e' (by simp [he']) h1
      · exact hnd.1 (h2 ▸ List.mem_map_of_mem (fun x => x.line) he')
    · exact hnd.2

theorem take_of_le_length {α : Type} {l : List α} {n : Nat} (h : l.length ≤ n) :
    l.take n = l := by
  induction l generalizing n with
  | nil => simp
  | cons x xs ih =>
    cases n with
    | zero => simp at h
    | succ m =>
      simp only [List.take]
      rw [ih (by simpa using h)]

/-- C9: excerpt merge idempotence (`mergeExcerpts`, `search.ts` lines 497-524).
For an excerpt list with pairwise-distinct line indices that fits under the
per-file limit, merging the list with itself (a) equals merging it with
nothing, (b) yields the same multiset of line indices, (c) keeps each line's
display text and its source set unchanged with no duplicated tags, (d) is
sorted by line index ascending, and (e) is capped at the per-file limit;
moreover (f) when two merged excerpts share a line index their sources are
unioned and the first non-empty display text is kept. -/
theorem mergeExcerpts_idempotent (xs : List ExcerptM) (limit : Nat)
    (hnd : (xs.map (·.line)).Nodup) (hlen : xs.length ≤ limit) :
    mergeExcerpts xs xs limit = mergeExcerpts xs [] limit ∧
    ((mergeExcerpts xs xs limit).map (·.line)).Perm (xs.map (·.line)) ∧
    (∀ e ∈ xs, ∃ e' ∈ mergeExcerpts xs xs limit,
      e'.line = e.line ∧ e'.text = e.text ∧ e'.sources.Nodup ∧
      ∀ s, s ∈ e'.sources ↔ s ∈ e.sources) ∧
    (mergeExcerpts xs xs limit).Pairwise (fun a b => a.line ≤ b.line) ∧
    (mergeExcerpts xs xs limit).length ≤ limit ∧
    (∀ e1 e2 : ExcerptM, e1.line = e2.line → 0 < limit →
      ∃ ex, mergeExcerpts [e1] [e2] limit = [ex] ∧ ex.line = e1.line ∧
        ex.text = (if e1.text.isEmpty then e2.text else e1.text) ∧
        ∀ s, s ∈ ex.sources ↔ s ∈ e1.sources ∨ s ∈ e2.sources) := by
  have hself := mergeExcerpts_self_eq xs limit
  have hm : xs.foldl pushExcerpt [] =
      xs.map (fun e => (e.line, e.text, dedupOrdered e.sources)) := by
    simpa using pushList_fresh xs [] (by simp) hnd
  have hperm : (sortByKeyInt (xs.map (fun e => (e.line, e.text, dedupOrdered e.sources)))).Perm
      (xs.map (fun e => (e.line, e.text, dedupOrdered e.sources))) :=
    List.perm_insertionSort _ _
  have hslen : (sortByKeyInt (xs.map (fun e => (e.line, e.text, dedupOrdered e.sources)))).length
      = xs.length := by
    rw [hperm.length_eq, List.length_map]
  have hres : mergeExcerpts xs [] limit =
      (sortByKeyInt (xs.map (fun e => (e.line, e.text, dedupOrdered e.sources)))).map
        (fun kv => (⟨kv.1, kv.2.1, kv.2.2⟩ : ExcerptM)) := by
    simp only [mergeExcerpts, List.append_nil, hm]
    exact take_of_le_length (by rw [List.length_map, hslen]; exact hlen)
  refine ⟨hself, ?_, ?_, ?_, ?_, ?_⟩
  · rw [hself, hres, List.map_map]
    have h1 : ((fun e : ExcerptM => e.line) ∘ fun kv : Int × MergeEntry => (⟨kv.1, kv.2.1, kv.2.2⟩ : ExcerptM))
        = fun kv : Int × MergeEntry => kv.1 := rfl
    rw [h1]
    refine (hperm.map _).trans (List.Perm.of_eq ?_)
    rw [List.map_map]
    rfl
  · intro e he
    refine ⟨⟨e.line, e.text, dedupOrdered e.sources⟩, ?_, rfl, rfl,
      nodup_dedupOrdered _, fun s => mem_dedupOrdered⟩
    rw [hself, hres]
    exact List.mem_map_of_mem _ (hperm.symm.subset (List.mem_map_of_mem _ he))
  · rw [hself, hres]
    exact (List.sorted_insertionSort _ _).map _ (fun a b h => h)
  · rw [hself, hres, List.length_map, hslen]
    exact hlen
  · intro e1 e2 hline hlim
    have h1 : pushExcerpt [] e1 = [(e1.line, (e1.text, dedupOrdered e1.sources))] := by
      simp [pushExcerpt, List.lookup]
    have h2 : pushExcerpt [(e1.line, (e1.text, dedupOrdered e1.sources))] e2
        = [(e1.line,
            ((if e1.text.isEmpty && !e2.text.isEmpty then e2.text else e1.text),
             addAllUnique (dedupOrdered e1.sources) e2.sources))] := by
      unfold pushExcerpt
      rw [← hline]
      simp [List.lookup]
    refine ⟨⟨e1.line,
      (if e1.text.isEmpty && !e2.text.isEmpty then e2.text else e1.text),
      addAllUnique (dedupOrdered e1.sources) e2.sources⟩, ?_, rfl, ?_, ?_⟩
    · have hfold : ([e1] ++ [e2]).foldl pushExcerpt [] =
          [(e1.line,
            ((if e1.text.isEmpty && !e2.text.isEmpty then e2.text else e1.text),
             addAllUnique (dedupOrdered e1.sources) e2.sources))] := by
        show pushExcerpt (pushExcerpt [] e1) e2 = _
        rw [h1, h2]
      simp only [mergeExcerpts, hfold]
      exact take_of_le_length (by simpa using hlim)
    · by_cases he1 : e1.text.isEmpty = true
      · by_cases he2 : e2.text.isEmpty = true
        · have a1 : e1.text = [] := by simpa using he1
          have a2 : e2.text = [] := by simpa using he2
          simp [a1, a2]
        · simp [he1, he2]
      · simp [he1]
    · intro s
      rw [mem_addAllUnique]
      simp [mem_dedupOrdered]

def exC9 : List ExcerptM :=
  [⟨2, "b".data, ["s2".data]⟩, ⟨1, "a".data, ["s1".data]⟩]

theorem mergeExcerpts_idempotent_witness :
    ((exC9.map (·.line)).Nodup ∧ exC9.length ≤ 5) ∧
    mergeExcerpts exC9 exC9 5 = mergeExcerpts exC9 [] 5 :=
  ⟨⟨by decide, by decide⟩,
   (mergeExcerpts_idempotent exC9 5 (by decide) (by decide)).1⟩

/-- The merged excerpt list never repeats a line index. -/
theorem mergeExcerpts_lines_nodup (base add : List ExcerptM) (limit : Nat) :
    ((mergeExcerpts base add limit).map (·.line)).Nodup := by
  simp only [mergeExcerpts]
  have h1 : (((base ++ add).foldl pushExcerpt []).map Prod.fst).Nodup :=
    keys_nodup_pushList _ [] (by simp)
  have h2 : ((sortByKeyInt ((base ++ add).foldl pushExcerpt [])).map Prod.fst).Nodup :=
    (((List.perm_insertionSort _ _).map Prod.fst).nodup_iff).mpr h1
  rw [List.map_take, List.map_map]
  exact (List.take_sublist _ _).nodup h2

theorem length_filter_le_one_of_nodup_map {α β : Type} [DecidableEq β] {l : List α}
    {f : α → β} (h : (l.map f).Nodup) (v : β) :
    (l.filter fun a => f a == v).length ≤ 1 := by
  induction l with
  | nil => simp
  | cons x xs ih =>
    simp only [List.map_cons, List.nodup_cons] at h
    by_cases hx : (f x == v) = true
    · have hnil : xs.filter (fun a => f a == v) = [] := by
        rw [List.filter_eq_nil_iff]
        intro a ha hpa
        have hav : f a = v := by simpa using hpa
        exact h.1 (by
          rw [show f x = v from by simpa using hx, ← hav]
          exact List.mem_map_of_mem f ha)
      rw [List.filter_cons, if_pos hx, hnil]
      simp
    · rw [List.filter_cons, if_neg hx]
      exact ih h.2

theorem mem_if_singleton {α : Type} {e x : α} {c : Prop} [Decidable c]
    (h : e ∈ if c then [x] else []) : e = x := by
  split at h
  · simpa using h
  · simp at h

/-- C10: synthetic Global-Query excerpts and line `-1`
(`buildGlobalSyntheticExcerpts`, `search.ts` lines 573-689; `mergeExcerpts`,
lines 497-524). Every synthetic excerpt either carries line index `-1` (the
name, path, frontmatter-key, frontmatter-value and tag facets always do) or is
a headings excerpt; the merged excerpt list never repeats a line index, so at
most one merged entry has line `-1`; concretely, name and path hits collapse
into a single `-1` excerpt whose sources are unioned and whose text is the
first-emitted facet label, and an excerpt at a real line index is kept
separate from it. -/
theorem globalSynthetic_minus_one (text name path : Str) (cache : Option FileCache)
    (targets : GlobalQueryTargets) (searchFn : Option (Str → Bool))
    (regex : Option JsRegex) (mode : SearchMode) (exactPhrase : Option Str)
    (base add : List ExcerptM) (limit : Nat) :
    (∀ e ∈ buildGlobalSyntheticExcerpts text name path cache targets searchFn
        regex mode exactPhrase,
      e.line = -1 ∨
        e.sources = ["globalQuery:".data ++ modeStr mode ++ ":headings".data]) ∧
    ((mergeExcerpts base add limit).map (·.line)).Nodup ∧
    ((mergeExcerpts base add limit).filter fun e => e.line == -1).length ≤ 1 ∧
    (buildGlobalSyntheticExcerpts [] "alpha".data "notes/alpha.md".data none
        ⟨false, true, true, true, true, false⟩
        (some fun s => strIncludes s "alpha".data) none .simple none =
      [⟨-1, "[name] alpha".data, ["globalQuery:simple:name".data]⟩,
       ⟨-1, "[path] notes/alpha.md".data, ["globalQuery:simple:path".data]⟩]) ∧
    (mergeExcerpts []
        [⟨-1, "[name] alpha".data, ["globalQuery:simple:name".data]⟩,
         ⟨-1, "[path] notes/alpha.md".data, ["globalQuery:simple:path".data]⟩] 10 =
      [⟨-1, "[name] alpha".data,
        ["globalQuery:simple:name".data, "globalQuery:simple:path".data]⟩]) ∧
    (mergeExcerpts [⟨0, "alpha line".data, ["content".data]⟩]
        [⟨-1, "[name] alpha".data, ["globalQuery:simple:name".data]⟩,
         ⟨-1, "[path] notes/alpha.md".data, ["globalQuery:simple:path".data]⟩] 10 =
      [⟨-1, "[name] alpha".data,
        ["globalQuery:simple:name".data, "globalQuery:simple:path".data]⟩,
       ⟨0, "alpha line".data, ["content".data]⟩]) := by
  refine ⟨?_, mergeExcerpts_lines_nodup base add limit,
    length_filter_le_one_of_nodup_map (mergeExcerpts_lines_nodup base add limit) (-1),
    by decide, by decide, by decide⟩
  intro e he
  simp only [buildGlobalSyntheticExcerpts, List.mem_append] at he
  rcases he with (((h | h) | h) | h) | h
  · exact Or.inl (by rw [mem_if_singleton h])
  · exact Or.inl (by rw [mem_if_singleton h])
  · left
    split at h
    · split at h
      · split at h
        · simp only [List.mem_flatMap, List.mem_append] at h
          obtain ⟨kv, _, hm | hm⟩ := h
          · rw [mem_if_singleton hm]
          · obtain ⟨v, _, hv⟩ := hm
            rw [mem_if_singleton hv]
        · simp at h
      · simp at h
    · simp at h
  · left
    split at h
    · simp only [List.mem_flatMap] at h
      obtain ⟨tg, _, hm⟩ := h
      rw [mem_if_singleton hm]
    · simp at h
  · split at h
    · simp only [List.mem_flatMap] at h
      obtain ⟨hh, _, hm⟩ := h
      split at hm
      · simp at hm
      · split at hm
        · split at hm
          · rw [List.mem_singleton] at hm
            subst hm
            exact Or.inr rfl
          · rw [List.mem_singleton] at hm
            subst hm
            exact Or.inl rfl
        · simp at hm
    · simp at h

theorem globalSynthetic_minus_one_witness :
    (⟨-1, "[name] alpha".data, ["globalQuery:simple:name".data]⟩ : ExcerptM) ∈
      buildGlobalSyntheticExcerpts [] "alpha".data "notes/alpha.md".data none
        ⟨false, true, true, true, true, false⟩
        (some fun s => strIncludes s "alpha".data) none .simple none ∧
    ((⟨-1, "[name] alpha".data, ["globalQuery:simple:name".data]⟩ : ExcerptM).line = -1 ∨
      (⟨-1, "[name] alpha".data, ["globalQuery:simple:name".data]⟩ : ExcerptM).sources =
        ["globalQuery:".data ++ modeStr .simple ++ ":headings".data]) :=
  ⟨by decide,
   (globalSynthetic_minus_one [] "alpha".data "notes/alpha.md".data none
      ⟨false, true, true, true, true, false⟩
      (some fun s => strIncludes s "alpha".data) none .simple none [] [] 0).1
     ⟨-1, "[name] alpha".data, ["globalQuery:simple:name".data]⟩ (by decide)⟩

/-! ## C5: the AND line-regex literal, parsed back and matched -/

/-- The escape test used by `buildLineRegexLiteral_AND`'s `escapeRegex`
(`search.ts` line 696): glob-escape characters plus `*` and `?`. -/
def escTermCh (c : Char) : Bool := isGlobEscCh c || c == '*' || c == '?'

/-- `escapeRegex` of `buildLineRegexLiteral_AND`, lifted to the top level. -/
def escTerm (s : Str) : Str :=
  s.flatMap fun c => if escTermCh c then ['\\', c] else [c]

theorem buildLineRegexLiteral_AND_eq (terms : List Str) (cs : Bool) :
    buildLineRegexLiteral_AND terms cs =
      ('/' :: '^' ::
        ((terms.flatMap fun t => "(?=.*".data ++ escTerm t ++ [')']) ++ ".*".data)) ++
      ('$' :: '/' :: (if cs then [] else ['i'])) := rfl

theorem escSet_of_badAtomStart {c : Char} (hb : badAtomStart c = true) :
    escTermCh c = true := by
  have hm : c ∈ ['|', '[', ']', '{', '}', '*', '+', '?'] := by
    simp only [badAtomStart, Bool.or_eq_true, beq_iff_eq] at hb
    simp only [List.mem_cons, List.not_mem_nil, or_false]
    tauto
  fin_cases hm <;> decide

theorem escTermCh_true_not_alnum {c : Char} (h : escTermCh c = true) :
    c.isAlphanum = false := by
  have hm : c ∈ ['.', '+', '^', '$', '{', '}', '(', ')', '|', '[', ']', '\\', '*', '?'] := by
    simp only [escTermCh, isGlobEscCh, Bool.or_eq_true, beq_iff_eq] at h
    simp only [List.mem_cons, List.not_mem_nil, or_false]
    tauto
  fin_cases hm <;> decide

theorem escTermCh_false_props {c : Char} (h : escTermCh c = false) :
    c ≠ ')' ∧ c ≠ '^' ∧ c ≠ '$' ∧ c ≠ '(' ∧ badAtomStart c = false ∧
      c ≠ '\\' ∧ c ≠ '.' ∧ c ≠ '*' ∧ c ≠ '+' ∧ c ≠ '?' := by
  have hne : ∀ x ∈ (['.', '+', '^', '$', '{', '}', '(', ')', '|', '[', ']', '\\', '*', '?'] : List Char),
      c ≠ x := by
    intro x hx he
    subst he
    fin_cases hx <;> exact absurd h (by decide)
  have hbad : badAtomStart c = false := by
    cases hb : badAtomStart c
    · rfl
    · rw [escSet_of_badAtomStart hb] at h
      exact absurd h (by decide)
  exact ⟨hne ')' (by decide), hne '^' (by decide), hne '$' (by decide),
    hne '(' (by decide), hbad, hne '\\' (by decide), hne '.' (by decide),
    hne '*' (by decide), hne '+' (by decide), hne '?' (by decide)⟩

theorem mem_escTerm {c : Char} {t : Str} (h : c ∈ escTerm t) : c = '\\' ∨ c ∈ t := by
  simp only [escTerm, List.mem_flatMap] at h
  obtain ⟨d, hd, hc⟩ := h
  split at hc
  · simp only [List.mem_cons, List.not_mem_nil, or_false] at hc
    rcases hc with hc | hc
    · exact Or.inl hc
    · exact Or.inr (hc ▸ hd)
  · simp only [List.mem_singleton] at hc
    exact Or.inr (hc ▸ hd)

theorem escTerm_append_head (t : Str) (rest : Str) :
    ∃ q rest3, escTerm t ++ ')' :: rest = q :: rest3 ∧
      q ≠ '*' ∧ q ≠ '+' ∧ q ≠ '?' := by
  cases t with
  | nil => exact ⟨')', rest, rfl, by decide, by decide, by decide⟩
  | cons c t' =>
    by_cases hc : escTermCh c = true
    · refine ⟨'\\', c :: (escTerm t' ++ ')' :: rest), ?_, by decide, by decide, by decide⟩
      simp [escTerm, hc]
    · obtain ⟨_, _, _, _, _, _, _, h1, h2, h3⟩ :=
        escTermCh_false_props (by simpa using hc)
      refine ⟨c, escTerm t' ++ ')' :: rest, ?_, h1, h2, h3⟩
      simp [escTerm, hc]

theorem splitLast_cons_slash (cs : Str) :
    splitLast ('/' :: cs) =
      match splitLast cs with
      | some (b, f) => some ('/' :: b, f)
      | none => if cs.all isAsciiLetter then some ([], cs) else none := rfl

theorem splitLast_cons_ne {c : Char} (hc : c ≠ '/') (cs : Str) :
    splitLast (c :: cs) = (fun bf => (c :: bf.1, bf.2)) <$> splitLast cs := by
  conv_lhs => unfold splitLast
  split
  · rename_i heq
    simp at heq
  · rename_i cs' heq
    obtain ⟨h1, -⟩ := List.cons.inj heq
    exact absurd h1 hc
  · rename_i c' cs' heq
    obtain ⟨h1, h2⟩ := List.cons.inj heq
    subst h1
    subst h2
    rfl

theorem splitLast_none_of_no_slash {cs : Str} (h : ∀ c ∈ cs, c ≠ '/') :
    splitLast cs = none := by
  induction cs with
  | nil => rfl
  | cons c rest ih =>
    rw [splitLast_cons_ne (h c (by simp)), ih fun d hd => h d (by simp [hd])]
    rfl

theorem splitLast_append {xs fl : Str} (hxs : ∀ c ∈ xs, c ≠ '/')
    (hfl : fl.all isAsciiLetter = true) :
    splitLast (xs ++ '/' :: fl) = some (xs, fl) := by
  induction xs with
  | nil =>
    show splitLast ('/' :: fl) = some ([], fl)
    rw [splitLast_cons_slash]
    rw [splitLast_none_of_no_slash fun c hc he => by
      subst he
      rw [List.all_eq_true] at hfl
      exact absurd (hfl _ hc) (by decide)]
    simp [hfl]
  | cons c rest ih =>
    rw [List.cons_append, splitLast_cons_ne (hxs c (by simp)),
      ih fun d hd => hxs d (by simp [hd])]
    rfl

theorem parseInner_close (f : Nat) (rest : Str) :
    parseInner (f + 1) (')' :: rest) = some ([], rest) := rfl

theorem parseInner_dotstar (f : Nat) (rest : Str) :
    parseInner (f + 1) ('.' :: '*' :: rest) =
      (fun pr => (RSimple.star .dot :: pr.1, pr.2)) <$> parseInner f rest := rfl

theorem parseInner_escaped (f : Nat) {d q : Char} (hd : d.isAlphanum = false)
    (h1 : q ≠ '*') (h2 : q ≠ '+') (h3 : q ≠ '?') (rest : Str) :
    parseInner (f + 1) ('\\' :: d :: q :: rest) =
      (fun pr => (RSimple.one (.lit d) :: pr.1, pr.2)) <$> parseInner f (q :: rest) := by
  simp only [parseInner]
  simp [hd, h1, h2, h3, badAtomStart]

theorem parseInner_plain (f : Nat) {c q : Char} (hc : escTermCh c = false)
    (h1 : q ≠ '*') (h2 : q ≠ '+') (h3 : q ≠ '?') (rest : Str) :
    parseInner (f + 1) (c :: q :: rest) =
      (fun pr => (RSimple.one (.lit c) :: pr.1, pr.2)) <$> parseInner f (q :: rest) := by
  obtain ⟨hrp, hcar, hdol, hlp, hbad, hbsl, hdot, -, -, -⟩ := escTermCh_false_props hc
  simp only [parseInner]
  simp [hrp, hcar, hdol, hlp, hbad, hbsl, hdot, h1, h2, h3]

theorem parseInner_escTerm (t : Str) : ∀ fuel rest,
    (escTerm t).length + 1 ≤ fuel →
    parseInner fuel (escTerm t ++ ')' :: rest) =
      some (t.map fun c => RSimple.one (.lit c), rest) := by
  induction t with
  | nil =>
    intro fuel rest hf
    obtain ⟨f, rfl⟩ : ∃ f, fuel = f + 1 := ⟨fuel - 1, by omega⟩
    exact parseInner_close f rest
  | cons c t' ih =>
    intro fuel rest hf
    obtain ⟨q, rest3, hsplit, h1, h2, h3⟩ := escTerm_append_head t' rest
    by_cases hc : escTermCh c = true
    · have hlen : (escTerm (c :: t')).length = (escTerm t').length + 2 := by
        simp [escTerm, hc]
      obtain ⟨f, rfl⟩ : ∃ f, fuel = f + 1 := ⟨fuel - 1, by omega⟩
      have heq : escTerm (c :: t') ++ ')' :: rest =
          '\\' :: c :: (escTerm t' ++ ')' :: rest) := by
        simp [escTerm, hc]
      rw [heq, hsplit, parseInner_escaped f (escTermCh_true_not_alnum hc) h1 h2 h3,
        ← hsplit, ih f rest (by omega)]
      rfl
    · have hc' : escTermCh c = false := by simpa using hc
      have hlen : (escTerm (c :: t')).length = (escTerm t').length + 1 := by
        simp [escTerm, hc']
      obtain ⟨f, rfl⟩ : ∃ f, fuel = f + 1 := ⟨fuel - 1, by omega⟩
      have heq : escTerm (c :: t') ++ ')' :: rest =
          c :: (escTerm t' ++ ')' :: rest) := by
        simp [escTerm, hc']
      rw [heq, hsplit, parseInner_plain f hc' h1 h2 h3,
        ← hsplit, ih f rest (by omega)]
      rfl

theorem parseSeq_caret (f : Nat) (rest : Str) :
    parseSeq (f + 1) ('^' :: rest) = (RPiece.simple .bol :: ·) <$> parseSeq f rest := rfl

theorem parseSeq_look (f : Nat) (rest2 : Str) :
    parseSeq (f + 1) ('(' :: '?' :: '=' :: rest2) =
      match parseInner f rest2 with
      | some (inner, rest3) => (RPiece.look inner :: ·) <$> parseSeq f rest3
      | none => none := rfl

theorem parseSeq_end (f : Nat) :
    parseSeq (f + 3) ('.' :: '*' :: '$' :: []) =
      some [.simple (.star .dot), .simple .eol] := rfl

/-- The pattern body built by `buildLineRegexLiteral_AND`, after the `^`
anchor: one lookahead block per term, then `.*$`. -/
def andBlocks (terms : List Str) : Str :=
  (terms.flatMap fun t => "(?=.*".data ++ escTerm t ++ [')']) ++ ['.', '*', '$']

theorem parseSeq_andBlocks (terms : List Str) : ∀ fuel,
    (andBlocks terms).length + 1 ≤ fuel →
    parseSeq fuel (andBlocks terms) =
      some ((terms.map fun t =>
          RPiece.look (.star .dot :: t.map fun c => RSimple.one (.lit c))) ++
        [.simple (.star .dot), .simple .eol]) := by
  induction terms with
  | nil =>
    intro fuel hf
    obtain ⟨f, rfl⟩ : ∃ f, fuel = f + 3 := ⟨fuel - 3, by
      simp [andBlocks] at hf
      omega⟩
    exact parseSeq_end f
  | cons t ts ih =>
    intro fuel hf
    have heq : andBlocks (t :: ts) =
        '(' :: '?' :: '=' :: '.' :: '*' :: (escTerm t ++ ')' :: andBlocks ts) := by
      simp [andBlocks, List.append_assoc]
    have hlen : (andBlocks (t :: ts)).length =
        6 + (escTerm t).length + (andBlocks ts).length := by
      rw [heq]
      simp
      omega
    obtain ⟨f, rfl⟩ : ∃ f, fuel = f + 1 := ⟨fuel - 1, by omega⟩
    obtain ⟨g, rfl⟩ : ∃ g, f = g + 1 := ⟨f - 1, by omega⟩
    have hpi : parseInner (g + 1) ('.' :: '*' :: (escTerm t ++ ')' :: andBlocks ts)) =
        some (.star .dot :: t.map fun c => RSimple.one (.lit c), andBlocks ts) := by
      rw [parseInner_dotstar g, parseInner_escTerm t g (andBlocks ts) (by omega)]
      rfl
    rw [heq, parseSeq_look (g + 1), hpi]
    show (RPiece.look (.star .dot :: t.map fun c => RSimple.one (.lit c)) :: ·) <$>
        parseSeq (g + 1) (andBlocks ts) =
      some ((t :: ts).map (fun u =>
          RPiece.look (.star .dot :: u.map fun c => RSimple.one (.lit c))) ++
        [.simple (.star .dot), .simple .eol])
    rw [ih (g + 1) (by omega)]
    rfl

theorem parseBody_AND (terms : List Str) :
    parseBody ('^' :: andBlocks terms) =
      some (.simple .bol ::
        ((terms.map fun t =>
            RPiece.look (.star .dot :: t.map fun c => RSimple.one (.lit c))) ++
          [.simple (.star .dot), .simple .eol])) := by
  show parseSeq (('^' :: andBlocks terms).length + 1) ('^' :: andBlocks terms) = _
  have hl : ('^' :: andBlocks terms).length + 1 = (andBlocks terms).length + 1 + 1 := by
    simp
  rw [hl, parseSeq_caret, parseSeq_andBlocks terms _ (by omega)]
  rfl

theorem mem_andBlocks {c : Char} {terms : List Str} (h : c ∈ andBlocks terms) :
    c ∈ ['(', '?', '=', '.', '*', ')', '$', '\\'] ∨ ∃ t ∈ terms, c ∈ t := by
  simp only [andBlocks, List.mem_append, List.mem_flatMap] at h
  rcases h with ⟨t, ht, hc⟩ | hc
  · have hc' : ((c = '(' ∨ c = '?' ∨ c = '=' ∨ c = '.' ∨ c = '*') ∨ c ∈ escTerm t) ∨
        c = ')' := by
      simpa [List.mem_append] using hc
    rcases hc' with (h | h) | rfl
    · left
      rcases h with rfl | rfl | rfl | rfl | rfl <;> decide
    · rcases mem_escTerm h with rfl | h2
      · left
        decide
      · exact Or.inr ⟨t, ht, h2⟩
    · left
      decide
  · left
    have hc' : c = '.' ∨ c = '*' ∨ c = '$' := by simpa using hc
    rcases hc' with rfl | rfl | rfl <;> decide

theorem tryParse_cons_slash (rest : Str) :
    tryParseExplicitRegex ('/' :: rest) =
      (if rest.any isLineTermCh then none
       else
         match splitLast rest with
         | some (body, flags) => if body.isEmpty then none else mkJsRegex body flags
         | none => none) := rfl

/-- Parsing back the literal built by `buildLineRegexLiteral_AND` succeeds and
yields the expected anchored-lookahead AST, for terms free of line terminators
and of `/`. -/
theorem tryParse_buildLineRegex (terms : List Str) (cs : Bool)
    (hterm : ∀ t ∈ terms, ∀ c ∈ t, isLineTermCh c = false ∧ c ≠ '/') :
    tryParseExplicitRegex (buildLineRegexLiteral_AND terms cs) =
      some ⟨'^' :: andBlocks terms, (if cs then [] else ['i']),
        .simple .bol ::
          ((terms.map fun t =>
              RPiece.look (.star .dot :: t.map fun c => RSimple.one (.lit c))) ++
            [.simple (.star .dot), .simple .eol]),
        !cs⟩ := by
  have hpat : buildLineRegexLiteral_AND terms cs =
      '/' :: (('^' :: andBlocks terms) ++ '/' :: (if cs then [] else ['i'])) := by
    rw [buildLineRegexLiteral_AND_eq]
    simp [andBlocks, List.append_assoc]
  have hfl : (if cs then ([] : Str) else ['i']).all isAsciiLetter = true := by
    cases cs <;> decide
  have hxs : ∀ c ∈ '^' :: andBlocks terms, c ≠ '/' := by
    intro c hc
    simp only [List.mem_cons] at hc
    rcases hc with rfl | hc
    · decide
    · rcases mem_andBlocks hc with hm | ⟨t, ht, hct⟩
      · fin_cases hm <;> decide
      · exact (hterm t ht c hct).2
  have hany : (('^' :: andBlocks terms) ++ '/' :: (if cs then [] else ['i'])).any
      isLineTermCh = false := by
    rw [List.any_eq_false]
    intro c hc
    simp only [List.cons_append, List.mem_cons, List.mem_append] at hc
    rcases hc with rfl | hc | hc
    · decide
    · rcases mem_andBlocks hc with hm | ⟨t, ht, hct⟩
      · fin_cases hm <;> decide
      · simp only [(hterm t ht c hct).1]
        exact Bool.false_ne_true
    · rcases hc with rfl | hc
      · decide
      · cases cs with
        | true => simp at hc
        | false =>
          simp at hc
          subst hc
          decide
  rw [hpat, tryParse_cons_slash, if_neg (by rw [hany]; exact Bool.false_ne_true),
    splitLast_append hxs hfl]
  show (if ('^' :: andBlocks terms).isEmpty then none
    else mkJsRegex ('^' :: andBlocks terms) (if cs then [] else ['i'])) = _
  rw [if_neg (by simp)]
  unfold mkJsRegex
  rw [if_pos (by cases cs <;> decide), parseBody_AND]
  cases cs <;> rfl

/-- Case-ruled `startsWith`: the semantics of a literal-character chain under
the optional `i` flag. -/
def hasPreCase (ic : Bool) (t s : Str) : Bool :=
  if ic then hasPre (lower t) (lower s) else hasPre t s

/-- Case-ruled `includes`: the semantics of `.*term` under the optional `i`
flag. -/
def strIncCase (ic : Bool) (s t : Str) : Bool :=
  if ic then strIncludes (lower s) (lower t) else strIncludes s t

theorem matchSeq_lits (ic : Bool) (t : Str) : ∀ fuel s st, t.length + 1 ≤ fuel →
    matchSeq ic fuel (t.map fun c => RPiece.simple (.one (.lit c))) s st =
      hasPreCase ic t s := by
  induction t with
  | nil =>
    intro fuel s st hf
    obtain ⟨f, rfl⟩ : ∃ f, fuel = f + 1 := ⟨fuel - 1, by omega⟩
    cases ic <;> rfl
  | cons c t' ih =>
    intro fuel s st hf
    obtain ⟨f, rfl⟩ : ∃ f, fuel = f + 1 := ⟨fuel - 1, by omega⟩
    rw [List.map_cons]
    cases s with
    | nil => cases ic <;> rfl
    | cons d s' =>
      show (matchAtom ic (.lit c) d &&
          matchSeq ic f (t'.map fun c => RPiece.simple (.one (.lit c))) s' false) = _
      rw [ih f s' false (by simp at hf; omega)]
      cases ic <;> simp [matchAtom, hasPreCase, hasPre, lower]

theorem matchSeq_dotstar_eol (ic : Bool) : ∀ (s : Str) fuel st, s.length + 3 ≤ fuel →
    matchSeq ic fuel [.simple (.star .dot), .simple .eol] s st =
      s.all fun c => !isLineTermCh c := by
  intro s
  induction s with
  | nil =>
    intro fuel st hf
    obtain ⟨f, rfl⟩ : ∃ f, fuel = f + 3 := ⟨fuel - 3, by omega⟩
    rfl
  | cons c s' ih =>
    intro fuel st hf
    obtain ⟨f, rfl⟩ : ∃ f, fuel = f + 1 := ⟨fuel - 1, by omega⟩
    obtain ⟨g, rfl⟩ : ∃ g, f = g + 1 := ⟨f - 1, by simp at hf; omega⟩
    show (matchSeq ic (g + 1) [.simple .eol] (c :: s') st ||
        (matchAtom ic .dot c &&
          matchSeq ic (g + 1) [.simple (.star .dot), .simple .eol] s' false)) = _
    rw [show matchSeq ic (g + 1) [.simple .eol] (c :: s') st = false from rfl,
      ih (g + 1) false (by simp at hf; omega)]
    simp [matchAtom]

theorem matchSeq_dotstar_lits (ic : Bool) (t : Str) : ∀ (s : Str) fuel st,
    (∀ c ∈ s, isLineTermCh c = false) → t.length + s.length + 2 ≤ fuel →
    matchSeq ic fuel
      (.simple (.star .dot) :: t.map fun c => RPiece.simple (.one (.lit c))) s st =
      strIncCase ic s t := by
  intro s
  induction s with
  | nil =>
    intro fuel st hclean hf
    obtain ⟨f, rfl⟩ : ∃ f, fuel = f + 1 := ⟨fuel - 1, by omega⟩
    show (matchSeq ic f (t.map fun c => RPiece.simple (.one (.lit c))) [] st || false) = _
    rw [matchSeq_lits ic t f [] st (by omega)]
    cases t <;> cases ic <;>
      simp [hasPreCase, strIncCase, hasPre, lower, strIncludes]
  | cons c s' ih =>
    intro fuel st hclean hf
    obtain ⟨f, rfl⟩ : ∃ f, fuel = f + 1 := ⟨fuel - 1, by omega⟩
    show (matchSeq ic f (t.map fun c => RPiece.simple (.one (.lit c))) (c :: s') st ||
        (matchAtom ic .dot c &&
          matchSeq ic f
            (.simple (.star .dot) :: t.map fun c => RPiece.simple (.one (.lit c)))
            s' false)) = _
    rw [matchSeq_lits ic t f (c :: s') st (by simp at hf; omega),
      ih f false (fun d hd => hclean d (by simp [hd])) (by simp at hf; omega),
      show matchAtom ic .dot c = true from by simp [matchAtom, hclean c (by simp)]]
    cases ic <;> simp [hasPreCase, strIncCase, strIncludes, lower]

/-- The AST built from the AND literal, minus the leading `^` anchor. -/
def andChain (terms : List Str) : List RPiece :=
  (terms.map fun t => RPiece.look (.star .dot :: t.map fun c => RSimple.one (.lit c))) ++
    [.simple (.star .dot), .simple .eol]

theorem matchSeq_andChain (ic : Bool) (terms : List Str) : ∀ fuel (s : Str) st,
    (∀ c ∈ s, isLineTermCh c = false) →
    piecesSize (andChain terms) + s.length + 1 ≤ fuel →
    matchSeq ic fuel (andChain terms) s st =
      terms.all fun t => strIncCase ic s t := by
  induction terms with
  | nil =>
    intro fuel s st hclean hf
    show matchSeq ic fuel ([.simple (.star .dot), .simple .eol] : List RPiece) s st =
      [].all fun t => strIncCase ic s t
    rw [matchSeq_dotstar_eol ic s fuel st (by
      simp [andChain, piecesSize, pieceSize] at hf
      omega)]
    simp only [List.all_nil]
    rw [List.all_eq_true]
    intro c hc
    simp [hclean c hc]
  | cons t ts ih =>
    intro fuel s st hclean hf
    have hsz : piecesSize (andChain (t :: ts)) =
        t.length + 2 + piecesSize (andChain ts) := by
      simp [andChain, piecesSize, pieceSize]
    obtain ⟨f, rfl⟩ : ∃ f, fuel = f + 1 := ⟨fuel - 1, by omega⟩
    show (matchSeq ic f
        ((RSimple.star .dot :: t.map fun c => RSimple.one (.lit c)).map RPiece.simple)
        s st &&
      matchSeq ic f (andChain ts) s st) = _
    have hmap : (RSimple.star .dot :: t.map fun c => RSimple.one (.lit c)).map
        RPiece.simple =
        .simple (.star .dot) :: t.map fun c => RPiece.simple (.one (.lit c)) := by
      rw [List.map_cons, List.map_map]
      rfl
    rw [hmap, matchSeq_dotstar_lits ic t s f st hclean (by omega),
      ih f s st hclean (by omega)]
    simp

theorem searchAt_bol_tail (ic : Bool) (ps : List RPiece) : ∀ s : Str,
    searchAt ic (.simple .bol :: ps) s false = false := by
  intro s
  induction s with
  | nil => rfl
  | cons c s' ih =>
    show (matchHere ic (.simple .bol :: ps) (c :: s') false ||
        searchAt ic (.simple .bol :: ps) s' false) = false
    rw [ih]
    rfl

theorem searchAt_bolChain (ic : Bool) (terms : List Str) (s : Str)
    (hclean : ∀ c ∈ s, isLineTermCh c = false) :
    searchAt ic (.simple .bol :: andChain terms) s true =
      terms.all fun t => strIncCase ic s t := by
  have hhere : matchHere ic (.simple .bol :: andChain terms) s true =
      terms.all fun t => strIncCase ic s t := by
    have hK : piecesSize (.simple .bol :: andChain terms) + s.length + 1 =
        (piecesSize (andChain terms) + s.length + 1) + 1 := by
      simp [piecesSize, pieceSize]
      omega
    show matchSeq ic (piecesSize (.simple .bol :: andChain terms) + s.length + 1)
        (.simple .bol :: andChain terms) s true = _
    rw [hK]
    show (true && matchSeq ic (piecesSize (andChain terms) + s.length + 1)
        (andChain terms) s true) = _
    rw [Bool.true_and]
    exact matchSeq_andChain ic terms _ s true hclean (by omega)
  cases s with
  | nil => exact hhere
  | cons c s' =>
    show (matchHere ic (.simple .bol :: andChain terms) (c :: s') true ||
        searchAt ic (.simple .bol :: andChain terms) s' false) = _
    rw [searchAt_bol_tail, hhere, Bool.or_false]

/-- C5 counterexample to the spec's example: the literal built by
`buildLineRegexLiteral_AND (["x", "y"]) false` (`search.ts` lines 695-700),
parsed back by `tryParseExplicitRegex`, matches "y first x second" as the spec
says, but it ALSO matches "only x here", contrary to the spec: the lookahead
for `y` is satisfied by the `y` of "only". -/
theorem lineRegexLiteral_matches_only_x_here :
    ((tryParseExplicitRegex (buildLineRegexLiteral_AND ["x".data, "y".data] false)).map
        fun rx => rtest rx "y first x second".data) = some true ∧
    ((tryParseExplicitRegex (buildLineRegexLiteral_AND ["x".data, "y".data] false)).map
        fun rx => rtest rx "only x here".data) = some true := by
  exact ⟨rfl, rfl⟩

/-- C5 (amended): round-trip of the AND line-regex literal
(`buildLineRegexLiteral_AND`, `search.ts` lines 695-700, parsed back through
`tryParseExplicitRegex`, lines 128-136).  For terms free of line terminators
and of `/`, the built literal is accepted by `tryParseExplicitRegex` and
yields the `^`-anchored concatenation of one zero-width lookahead per escaped
term followed by `.*$`, with the `i` flag exactly when not case-sensitive; on
a line free of line terminators it matches exactly when the line contains
every term in any order (case-insensitively unless case-sensitive).  The
spec's negative example is wrong: "only x here" does contain both "x" and
"y" (the `y` of "only"), so the literal for `["x", "y"]` matches it (theorem
`lineRegexLiteral_matches_only_x_here`). -/
theorem buildLineRegexLiteral_AND_roundtrip (terms : List Str) (cs : Bool) (line : Str)
    (hterm : ∀ t ∈ terms, ∀ c ∈ t, isLineTermCh c = false ∧ c ≠ '/')
    (hline : ∀ c ∈ line, isLineTermCh c = false) :
    ∃ rx, tryParseExplicitRegex (buildLineRegexLiteral_AND terms cs) = some rx ∧
      rx.source = '^' :: andBlocks terms ∧
      rx.flags = (if cs then [] else ['i']) ∧
      rx.ignoreCase = !cs ∧
      rx.ast = .simple .bol :: andChain terms ∧
      (rtest rx line = true ↔ ∀ t ∈ terms, includesWithCase line t cs = true) := by
  refine ⟨_, tryParse_buildLineRegex terms cs hterm, rfl, rfl, rfl, rfl, ?_⟩
  show searchAt (!cs) (.simple .bol :: andChain terms) line true = true ↔ _
  rw [searchAt_bolChain (!cs) terms line hline, List.all_eq_true]
  exact Iff.rfl

theorem buildLineRegexLiteral_AND_roundtrip_witness :
    (∀ t ∈ ["a".data], ∀ c ∈ t, isLineTermCh c = false ∧ c ≠ '/') ∧
    (∀ c ∈ "za".data, isLineTermCh c = false) ∧
    ∃ rx, tryParseExplicitRegex (buildLineRegexLiteral_AND ["a".data] true) = some rx ∧
      rx.source = '^' :: andBlocks ["a".data] ∧
      rx.flags = (if true then [] else ['i']) ∧
      rx.ignoreCase = !true ∧
      rx.ast = .simple .bol :: andChain ["a".data] ∧
      (rtest rx "za".data = true ↔
        ∀ t ∈ ["a".data], includesWithCase "za".data t true = true) :=
  ⟨by decide, by decide,
   buildLineRegexLiteral_AND_roundtrip ["a".data] true "za".data (by decide) (by decide)⟩
